import Mathlib

/-!
Metadata and block-allocation engine of the NVMe capture store: a shallow embedding of
`src/common.c`.

Representation choices.

* `common.h` is not among the sources, so its constants (`MAXFILES`, `NAMELENGTH`, `MAXDISKS`,
  `MAGICNUMBER`, `CURVERSION`, `METASECTORLENGTH`) and `sizeof (metaSector)` are fields of
  `Config`, a parameter of every function that uses one of them.
* A `char` buffer is a `List Nat` of byte values; a byte past the end of the list reads as
  NUL, so the C string "ab" is `[97, 98]`.
* `metaFile content[MAXFILES]` is the list `content`; a loop `for (j = 0; j < MAXFILES; j++)`
  traverses that list.
* `raid->disk` is the list `disk` of the sectors laid out in memory, `numdisks` the number of
  them that are in use; a loop `for (i = 0; i < raid->numdisks; i++)` traverses
  `disk.take numdisks`.
* `uint64_t` values are `Nat` with explicit reduction modulo `2 ^ 64` where the C arithmetic wraps;
  `uint8_t` arguments are reduced modulo `256` where the C call converts them.
* A pointer to `raid->disk[i].content[j]` is the pair `(i, j)`; `NULL` is `none`.
* `exit (-1)` is a result constructor that carries the memory state at the point of exit.
-/

namespace NvmeRaid

/-- Constants of `common.h` and the size of a sector in memory. -/
structure Config where
  MAXFILES : Nat
  NAMELENGTH : Nat
  MAXDISKS : Nat
  MAGICNUMBER : Nat
  CURVERSION : Nat
  METASECTORLENGTH : Nat
  sizeofMetaSector : Nat
  deriving DecidableEq, Repr

/-- One slot of a device's file table: `name[NAMELENGTH]`, `startBlock`, `endBlock`. -/
structure metaFile where
  name : List Nat
  startBlock : Nat
  endBlock : Nat
  deriving DecidableEq, Repr

/-- The metadata sector of one device. -/
structure metaSector where
  MAGIC : Nat
  version : Nat
  diskId : Nat
  totalDisks : Nat
  totalFiles : Nat
  content : List metaFile
  deriving DecidableEq, Repr

/-- The assembled array. -/
structure nvmeRaid where
  disk : List metaSector
  numdisks : Nat
  totalBlocks : Nat
  deriving DecidableEq, Repr

/-- Number of values of a `uint64_t`. -/
def u64 : Nat := 2 ^ 64

/-- Subtraction of `uint64_t` values: `a - b` modulo `2 ^ 64`. -/
def sub64 (a b : Nat) : Nat := (a + (u64 - b % u64)) % u64

/-- Addition of `uint64_t` values: `a + b` modulo `2 ^ 64`. -/
def add64 (a b : Nat) : Nat := (a + b) % u64

/-- Byte `k` of a buffer. -/
def byteAt (s : List Nat) (k : Nat) : Nat := s.getD k 0

/-- The libc `strncmp`: compares at most `n` bytes and stops at the first difference or at a
NUL; the result is the difference of the two bytes that differ, `0` when there is none. -/
def strncmp : List Nat → List Nat → Nat → Int
  | _, _, 0 => 0
  | s1, s2, n + 1 =>
    if s1.headD 0 ≠ s2.headD 0 then (s1.headD 0 : Int) - (s2.headD 0 : Int)
    else if s1.headD 0 = 0 then 0
    else strncmp s1.tail s2.tail n

/-- The libc `memcpy (dest, src, n)`: the first `n` bytes of `dest` become those of `src`. -/
def memcpy (dest src : List Nat) (n : Nat) : List Nat :=
  (List.range n).map (byteAt src) ++ dest.drop n

/-- The libc `lfind`: position of the first element on which `compar key` is `0`. -/
def lfind {α β : Type} (compar : α → β → Int) (key : α) : List β → Option Nat
  | [] => none
  | b :: bs => if compar key b = 0 then some 0 else (lfind compar key bs).map (· + 1)

/-- The libc `qsort`, as a sort that leaves `p1` before `p2` whenever `compar p1 p2 ≤ 0`. -/
def qsort {α : Type} (compar : α → α → Int) (base : List α) : List α :=
  base.insertionSort (fun p1 p2 => compar p1 p2 ≤ 0)

/-- Result of a function that may call `exit (-1)`; both cases carry the array in memory. -/
inductive Outcome where
  | returned (r : nvmeRaid)
  | exited (r : nvmeRaid)
  deriving DecidableEq, Repr

/-- The function `checkMetaConfig`: `none` is `exit (-1)`. -/
def checkMetaConfig (C : Config) : Option Unit :=
  if C.sizeofMetaSector > C.METASECTORLENGTH then none else some ()

/-- The function `checkMeta`: `none` is the `exit (-1)` of `checkMetaConfig`. -/
def checkMeta (C : Config) (m : metaSector) : Option Bool :=
  match checkMetaConfig C with
  | none => none
  | some _ => some (m.MAGIC == C.MAGICNUMBER)

/-- The write `f->name[0] = 0`. -/
def clearName (name : List Nat) : List Nat := 0 :: name.tail

/-- The function `initMeta`. -/
def initMeta (C : Config) (m : metaSector) (diskId totalDisks : Nat) : metaSector :=
  { MAGIC := C.MAGICNUMBER
    version := C.CURVERSION
    diskId := diskId
    totalDisks := totalDisks
    totalFiles := 0
    content := m.content.map (fun f => { name := clearName f.name, startBlock := 0, endBlock := 0 }) }

/-- The comparator `cmpMetaSector`: the value of the C comparison `p1->diskId > p2->diskId`. -/
def cmpMetaSector (p1 p2 : metaSector) : Int := if p1.diskId > p2.diskId then 1 else 0

/-- The comparator `cmpFile`: the key is the searched name, read through a `metaFile` pointer whose first
member is `name`. -/
def cmpFile (C : Config) (key : List Nat) (f : metaFile) : Int :=
  strncmp key f.name C.NAMELENGTH

/-- First loop of `createRaid`: the value of `cnt`, `none` when `checkMeta` exits. -/
def countInit (C : Config) : List metaSector → Option Nat
  | [] => some 0
  | m :: ms =>
    match checkMeta C m with
    | none => none
    | some b => (countInit C ms).map (fun cnt => if b then cnt + 1 else cnt)

/-- Formatting loop of `createRaid`, from position `i` on; the two `uint8_t` arguments of
`initMeta` are converted at the call. -/
def initLoop (C : Config) (numdisks : Nat) : Nat → List metaSector → List metaSector
  | _, [] => []
  | i, m :: ms => initMeta C m (i % 256) (numdisks % 256) :: initLoop C numdisks (i + 1) ms

/-- Integrity loop of `createRaid`, from position `i` on: `true` when it reaches `exit`. -/
def integrityLoop (numdisks : Nat) : Nat → List metaSector → Bool
  | _, [] => false
  | i, m :: ms =>
    if m.diskId ≠ i ∧ m.totalDisks ≠ numdisks then true else integrityLoop numdisks (i + 1) ms

/-- The sectors in use, `disk[0 .. numdisks)`. -/
def active (r : nvmeRaid) : List metaSector := r.disk.take r.numdisks

/-- The array with `disk[0 .. numdisks)` replaced. -/
def withActive (r : nvmeRaid) (ds : List metaSector) : nvmeRaid :=
  { r with disk := ds ++ r.disk.drop r.numdisks }

/-- The function `createRaid`, from the sort on. -/
def sortAndCheck (r : nvmeRaid) : Outcome :=
  if integrityLoop r.numdisks 0 (qsort cmpMetaSector (active r)) then
    Outcome.exited (withActive r (qsort cmpMetaSector (active r)))
  else Outcome.returned (withActive r (qsort cmpMetaSector (active r)))

/-- The function `createRaid`. The local array `isInit` is written and never read, so it is left out. -/
def createRaid (C : Config) (r : nvmeRaid) : Outcome :=
  match countInit C (active r) with
  | none => Outcome.exited r
  | some cnt =>
    if cnt = 0 then sortAndCheck (withActive r (initLoop C r.numdisks 0 (active r)))
    else if cnt < r.numdisks then Outcome.exited r
    else sortAndCheck r

/-- Inner loop of `blocksLeft`: `usedBlocks` is assigned, not accumulated. -/
def blocksLeftSlots (usedBlocks : Nat) : List metaFile → Nat
  | [] => usedBlocks
  | f :: fs => blocksLeftSlots (sub64 f.endBlock f.startBlock) fs

/-- Outer loop of `blocksLeft`. -/
def blocksLeftDisks (usedBlocks : Nat) : List metaSector → Nat
  | [] => usedBlocks
  | m :: ms => blocksLeftDisks (blocksLeftSlots usedBlocks m.content) ms

/-- The function `blocksLeft`. -/
def blocksLeft (r : nvmeRaid) : Nat := sub64 r.totalBlocks (blocksLeftDisks 0 (active r))

/-- Inner loop of `rightFreeBlock`. -/
def mostRightSlots (mostRight : Nat) : List metaFile → Nat
  | [] => mostRight
  | f :: fs => mostRightSlots (if mostRight < f.endBlock then f.endBlock else mostRight) fs

/-- Outer loop of `rightFreeBlock`. -/
def mostRightDisks (mostRight : Nat) : List metaSector → Nat
  | [] => mostRight
  | m :: ms => mostRightDisks (mostRightSlots mostRight m.content) ms

/-- The function `rightFreeBlock`. -/
def rightFreeBlock (r : nvmeRaid) : Nat := mostRightDisks 0 (active r)

/-- The function `rightFreeBlocks`. -/
def rightFreeBlocks (r : nvmeRaid) : Nat := sub64 r.totalBlocks (rightFreeBlock r)

/-- Loop of `findFile` and of `findFileDisk`: the first `(i, j)` at which `lfind` succeeds. -/
def findLoop (C : Config) (name : List Nat) : List metaSector → Option (Nat × Nat)
  | [] => none
  | m :: ms =>
    match lfind (cmpFile C) name m.content with
    | some j => some (0, j)
    | none => (findLoop C name ms).map (fun p => (p.1 + 1, p.2))

/-- The function `findFile`. -/
def findFile (C : Config) (r : nvmeRaid) (name : List Nat) : Option (Nat × Nat) :=
  findLoop C name (active r)

/-- Value of `i` when the loop of `findFileDisk` is left. -/
def findFileDiskLoop (C : Config) (name : List Nat) : List metaSector → Nat
  | [] => 0
  | m :: ms =>
    match lfind (cmpFile C) name m.content with
    | some _ => 0
    | none => findFileDiskLoop C name ms + 1

/-- Position at which `findFileDisk` reads `raid->disk[i].diskId`. -/
def findFileDiskIndex (C : Config) (r : nvmeRaid) (name : List Nat) : Nat :=
  findFileDiskLoop C name (active r)

/-- The function `findFileDisk`: `none` when the read falls outside the sectors laid out in memory. -/
def findFileDisk (C : Config) (r : nvmeRaid) (name : List Nat) : Option Nat :=
  (r.disk[findFileDiskIndex C r name]?).map (fun m => m.diskId)

/-- The slot `disk[i].content[j]` of a list of sectors. -/
def slotAt (ds : List metaSector) (i j : Nat) : Option metaFile :=
  match ds[i]? with
  | none => none
  | some m => m.content[j]?

/-- The list of sectors with `g` applied to `disk[i].content[j]`. -/
def modifySlot (g : metaFile → metaFile) (i j : Nat) (ds : List metaSector) : List metaSector :=
  ds.modify (fun m => { m with content := m.content.modify g j }) i

/-- Inner placement loop of `addFile`: the first slot whose name starts with a NUL. -/
def placeSlots : List metaFile → Option Nat
  | [] => none
  | f :: fs => if f.name.headD 0 = 0 then some 0 else (placeSlots fs).map (· + 1)

/-- Outer placement loop of `addFile`. -/
def placeDisks : List metaSector → Option (Nat × Nat)
  | [] => none
  | m :: ms =>
    match placeSlots m.content with
    | some j => some (0, j)
    | none => (placeDisks ms).map (fun p => (p.1 + 1, p.2))

/-- What `addFile` returns: a pointer to the entry, or `NULL` tagged with the `return` that
produced it (lines 135, 137, 140 and 154 of `common.c`). -/
inductive AddReturn where
  | entry (i j : Nat)
  | nullDuplicate
  | nullFull
  | nullNoSpace
  | nullNoSlot
  deriving DecidableEq, Repr

/-- The pointer in an `AddReturn`. -/
def AddReturn.ptr : AddReturn → Option (Nat × Nat)
  | AddReturn.entry i j => some (i, j)
  | _ => none

/-- State after `addFile`: the returned value, the array, and the caller's `name` buffer. -/
structure AddState where
  ret : AddReturn
  raid : nvmeRaid
  name : List Nat
  deriving DecidableEq, Repr

/-- The two assignments of `addFile` to the chosen slot. -/
def placeEntry (mostRight blsize : Nat) (f : metaFile) : metaFile :=
  { f with startBlock := mostRight, endBlock := add64 mostRight blsize }

/-- The function `addFile`. The `memcpy` has the caller's `name` as destination and the slot's name as
source. -/
def addFile (C : Config) (r : nvmeRaid) (name : List Nat) (blsize : Nat) : AddState :=
  if (findFile C r name).isSome then ⟨AddReturn.nullDuplicate, r, name⟩
  else if (r.disk[0]?).map (fun m => m.totalFiles) = some C.MAXFILES then
    ⟨AddReturn.nullFull, r, name⟩
  else if rightFreeBlocks r < blsize then ⟨AddReturn.nullNoSpace, r, name⟩
  else
    match placeDisks (active r) with
    | none => ⟨AddReturn.nullNoSlot, r, name⟩
    | some (i, j) =>
      ⟨AddReturn.entry i j,
        withActive r (modifySlot (placeEntry (rightFreeBlock r) blsize) i j (active r)),
        memcpy name ((slotAt (active r) i j).elim [] (fun f => f.name)) C.NAMELENGTH⟩

/-- The three assignments of `delFile` to the found slot. -/
def tombstone (f : metaFile) : metaFile :=
  { name := clearName f.name, startBlock := 0, endBlock := 0 }

/-- The function `delFile`: the returned byte and the array afterwards. -/
def delFile (C : Config) (r : nvmeRaid) (name : List Nat) : Nat × nvmeRaid :=
  match findFile C r name with
  | some (i, j) => (1, withActive r (modifySlot tombstone i j (active r)))
  | none => (0, r)

/-- The value `F` is the largest `endBlock` of the slots of `ds`, or `0` when no slot has a larger one. -/
def IsMostRight (ds : List metaSector) (F : Nat) : Prop :=
  (∀ i j f, slotAt ds i j = some f → f.endBlock ≤ F) ∧
    (F = 0 ∨ ∃ i j f, slotAt ds i j = some f ∧ f.endBlock = F)

/-! ## Concrete arrays -/

/-- A small configuration for concrete evaluations. -/
def cfg : Config :=
  { MAXFILES := 2, NAMELENGTH := 4, MAXDISKS := 4, MAGICNUMBER := 51966, CURVERSION := 1,
    METASECTORLENGTH := 4096, sizeofMetaSector := 64 }

/-- An empty slot. -/
def emptySlot : metaFile := ⟨[0, 0, 0, 0], 0, 0⟩

/-- A formatted sector of `cfg` with the given header fields and slots. -/
def sector (diskId totalDisks totalFiles : Nat) (content : List metaFile) : metaSector :=
  { MAGIC := 51966, version := 1, diskId := diskId, totalDisks := totalDisks,
    totalFiles := totalFiles, content := content }

/-- An unformatted sector: no magic, arbitrary bytes in the other fields. -/
def rawSector : metaSector :=
  { MAGIC := 0, version := 0, diskId := 7, totalDisks := 9, totalFiles := 3,
    content := [⟨[120, 121, 0, 0], 5, 9⟩, ⟨[0, 0, 0, 0], 0, 0⟩] }

/-- One formatted device next to one unformatted device. -/
def mixed2 : nvmeRaid :=
  { disk := [sector 0 2 0 [emptySlot, emptySlot], rawSector], numdisks := 2, totalBlocks := 2000 }

/-- Two freshly formatted devices of 1000 blocks each. -/
def fresh2 : nvmeRaid :=
  { disk := [sector 0 2 0 [emptySlot, emptySlot], sector 1 2 0 [emptySlot, emptySlot]],
    numdisks := 2, totalBlocks := 2000 }

/-- The array `fresh2` inside a table of four sectors, the last two unused and zeroed. -/
def spare2 : nvmeRaid :=
  { disk := [sector 0 2 0 [emptySlot, emptySlot], sector 1 2 0 [emptySlot, emptySlot],
             ⟨0, 0, 0, 0, 0, [emptySlot, emptySlot]⟩, ⟨0, 0, 0, 0, 0, [emptySlot, emptySlot]⟩],
    numdisks := 2, totalBlocks := 2000 }

/-- Files "a" `[0, 100)` on device 0 and "b" `[100, 150)` on device 1. -/
def twoFiles : nvmeRaid :=
  { disk := [sector 0 2 1 [⟨[97, 0, 0, 0], 0, 100⟩, emptySlot],
             sector 1 2 1 [⟨[98, 0, 0, 0], 100, 150⟩, emptySlot]],
    numdisks := 2, totalBlocks := 2000 }

/-- Device 0 holds "a" and "b" and counts `MAXFILES` files; device 1 is empty. -/
def firstDiskFull : nvmeRaid :=
  { disk := [sector 0 2 2 [⟨[97, 0, 0, 0], 0, 100⟩, ⟨[98, 0, 0, 0], 100, 150⟩],
             sector 1 2 0 [emptySlot, emptySlot]],
    numdisks := 2, totalBlocks := 2000 }

/-- Every slot of both devices holds a file; the counters are as `initMeta` left them. -/
def allSlotsTaken : nvmeRaid :=
  { disk := [sector 0 2 0 [⟨[97, 0, 0, 0], 0, 100⟩, ⟨[98, 0, 0, 0], 100, 150⟩],
             sector 1 2 0 [⟨[99, 0, 0, 0], 150, 160⟩, ⟨[100, 0, 0, 0], 160, 170⟩]],
    numdisks := 2, totalBlocks := 2000 }

/-- One formatted device whose sector records an array of five devices. -/
def wrongWidth : nvmeRaid :=
  { disk := [sector 0 5 0 [emptySlot, emptySlot]], numdisks := 1, totalBlocks := 1000 }

/-- Two formatted devices that both claim position 0. -/
def sameId : nvmeRaid :=
  { disk := [sector 0 2 0 [emptySlot, emptySlot], sector 0 2 0 [emptySlot, emptySlot]],
    numdisks := 2, totalBlocks := 2000 }

/-- A device of 10 blocks whose table records a file that ends at block `2 ^ 64 - 1`. -/
def wrapRaid : nvmeRaid :=
  { disk := [sector 0 1 1 [⟨[120, 0, 0, 0], 0, 18446744073709551615⟩, emptySlot]],
    numdisks := 1, totalBlocks := 10 }

/-! ## Vocabulary of the directory claims -/

/-- Position `(i2, j2)` is scanned before `(i, j)`: devices in ascending position, the slots
of one device in physical order. -/
def scansBefore (i2 j2 i j : Nat) : Prop := i2 < i ∨ (i2 = i ∧ j2 < j)

/-- A slot is live when its name starts with a non-zero byte. -/
def isLive (f : metaFile) : Bool := f.name.headD 0 != 0

/-- The slots of every sector, in scan order. -/
def allSlots (ds : List metaSector) : List metaFile := ds.flatMap (fun m => m.content)

/-- The largest `endBlock` of a list of slots, `0` for the empty list. -/
def maxEnd : List metaFile → Nat
  | [] => 0
  | f :: fs => max f.endBlock (maxEnd fs)

/-- The frontier as the specification words it: the largest `endBlock` over the live entries
of every device, `0` when there is none. -/
def frontierLive (r : nvmeRaid) : Nat := maxEnd ((allSlots (active r)).filter isLive)

/-- The largest `endBlock` over every slot of every device, live or not. -/
def frontierAll (r : nvmeRaid) : Nat := maxEnd (allSlots (active r))

/-- The header fields of a sector: `MAGIC`, `version`, `diskId`, `totalDisks`, `totalFiles`. -/
def header (m : metaSector) : Nat × Nat × Nat × Nat × Nat :=
  (m.MAGIC, m.version, m.diskId, m.totalDisks, m.totalFiles)

/-- No block lies in the ranges of two slots at different positions. -/
def NoOverlap (ds : List metaSector) : Prop :=
  ∀ i j i2 j2 f f2, ¬ (i = i2 ∧ j = j2) → slotAt ds i j = some f → slotAt ds i2 j2 = some f2 →
    ∀ b, ¬ (f.startBlock ≤ b ∧ b < f.endBlock ∧ f2.startBlock ≤ b ∧ b < f2.endBlock)

/-- A call of one of the two mutating directory operations. -/
inductive DirOp where
  | add (name : List Nat) (blsize : Nat)
  | del (name : List Nat)
  deriving DecidableEq, Repr

/-- The array after one directory operation. -/
def applyOp (C : Config) (r : nvmeRaid) : DirOp → nvmeRaid
  | DirOp.add name blsize => (addFile C r name blsize).raid
  | DirOp.del name => (delFile C r name).2

/-- The array after a sequence of directory operations, applied from left to right. -/
def run (C : Config) (r : nvmeRaid) (ops : List DirOp) : nvmeRaid :=
  ops.foldl (applyOp C) r

/-- Two slots on different devices both named "a". -/
def dupNames : nvmeRaid :=
  { disk := [sector 0 2 1 [⟨[97, 0, 0, 0], 0, 100⟩, emptySlot],
             sector 1 2 1 [⟨[97, 0, 0, 0], 100, 150⟩, emptySlot]],
    numdisks := 2, totalBlocks := 2000 }

/-! ## Vocabulary of the last claims -/

/-- No two live slots at different positions hold names that the comparison of `findFile`
takes for equal. -/
def UniqueNames (C : Config) (ds : List metaSector) : Prop :=
  ∀ i j i2 j2 f f2, ¬ (i = i2 ∧ j = j2) → slotAt ds i j = some f → slotAt ds i2 j2 = some f2 →
    isLive f = true → isLive f2 = true → cmpFile C f.name f2 ≠ 0

/-- Every slot together with its position `(i, j)`, in scan order. -/
def indexedSlots (ds : List metaSector) : List ((Nat × Nat) × metaFile) :=
  ds.enum.flatMap (fun p => p.2.content.enum.map (fun q => ((p.1, q.1), q.2)))

/-- Used blocks as the specification words them: the sum, over every slot of every device, of
`endBlock - startBlock`. -/
def usedBlocksSum (r : nvmeRaid) : Nat :=
  ((allSlots (active r)).map (fun f => sub64 f.endBlock f.startBlock)).sum

/-- Blocks left as the specification words them: `totalBlocks` minus `usedBlocksSum`. -/
def blocksLeftSum (r : nvmeRaid) : Nat := sub64 r.totalBlocks (usedBlocksSum r)

/-! ## Vocabulary of the revised claims -/

theorem slotAt_zero (m : metaSector) (ms : List metaSector) (j : Nat) :
    slotAt (m :: ms) 0 j = m.content[j]? := by
  simp [slotAt]

theorem slotAt_succ (m : metaSector) (ms : List metaSector) (i j : Nat) :
    slotAt (m :: ms) (i + 1) j = slotAt ms i j := by
  simp [slotAt]

theorem slotAt_nil (i j : Nat) : slotAt [] i j = none := by
  simp [slotAt]

theorem length_modifySlot (g : metaFile → metaFile) (i j : Nat) (ds : List metaSector) :
    (modifySlot g i j ds).length = ds.length := by
  simp [modifySlot]

theorem slotAt_modifySlot (g : metaFile → metaFile) (i j i2 j2 : Nat) (ds : List metaSector) :
    slotAt (modifySlot g i j ds) i2 j2 =
      if i2 = i ∧ j2 = j then (slotAt ds i j).map g else slotAt ds i2 j2 := by
  unfold slotAt modifySlot
  rw [List.getElem?_modify]
  by_cases hi : i = i2
  · subst hi
    cases h : ds[i]? with
    | none => simp
    | some m =>
      simp only [Option.map_eq_map, Option.map_some', if_true, true_and]
      rw [List.getElem?_modify]
      by_cases hj : j = j2
      · subst hj; simp
      · have hj2 : ¬ j2 = j := fun e => hj e.symm
        simp [hj, hj2]
  · have hi2 : ¬ i2 = i := fun e => hi e.symm
    cases h : ds[i2]? <;> simp [hi, hi2]

theorem active_withActive (r : nvmeRaid) (ds : List metaSector)
    (h : ds.length = (active r).length) : active (withActive r ds) = ds := by
  have h2 : ds.length = min r.numdisks r.disk.length := by
    simpa [active] using h
  show (ds ++ r.disk.drop r.numdisks).take r.numdisks = ds
  clear h
  have h := h2
  rcases Nat.le_total r.numdisks r.disk.length with hle | hle
  · rw [Nat.min_eq_left hle] at h
    rw [List.take_append_of_le_length (by omega), List.take_of_length_le (by omega)]
  · rw [Nat.min_eq_right hle] at h
    rw [List.drop_of_length_le hle, List.append_nil, List.take_of_length_le (by omega)]

theorem totalBlocks_withActive (r : nvmeRaid) (ds : List metaSector) :
    (withActive r ds).totalBlocks = r.totalBlocks := rfl

theorem le_mostRightSlots (acc : Nat) (fs : List metaFile) : acc ≤ mostRightSlots acc fs := by
  induction fs generalizing acc with
  | nil => simp [mostRightSlots]
  | cons f fs ih =>
    simp only [mostRightSlots]
    have := ih (if acc < f.endBlock then f.endBlock else acc)
    split_ifs at this ⊢ <;> omega

theorem endBlock_le_mostRightSlots (acc : Nat) (fs : List metaFile) (j : Nat) (f : metaFile)
    (h : fs[j]? = some f) : f.endBlock ≤ mostRightSlots acc fs := by
  induction fs generalizing acc j with
  | nil => simp at h
  | cons g fs ih =>
    simp only [mostRightSlots]
    cases j with
    | zero =>
      simp at h
      subst h
      have := le_mostRightSlots (if acc < g.endBlock then g.endBlock else acc) fs
      split_ifs at this ⊢ <;> omega
    | succ j =>
      simp at h
      exact ih _ j h

theorem mostRightSlots_attained (acc : Nat) (fs : List metaFile) :
    mostRightSlots acc fs = acc ∨
      ∃ (j : Nat) (f : metaFile), fs[j]? = some f ∧ f.endBlock = mostRightSlots acc fs := by
  induction fs generalizing acc with
  | nil => simp [mostRightSlots]
  | cons g fs ih =>
    simp only [mostRightSlots]
    rcases ih (if acc < g.endBlock then g.endBlock else acc) with h | ⟨j, f, hj, hf⟩
    · by_cases hlt : acc < g.endBlock
      · right
        refine ⟨0, g, by simp, ?_⟩
        rw [h, if_pos hlt]
      · left
        rw [h, if_neg hlt]
    · right
      exact ⟨j + 1, f, by rw [List.getElem?_cons_succ]; exact hj, hf⟩

theorem le_mostRightDisks (acc : Nat) (ds : List metaSector) : acc ≤ mostRightDisks acc ds := by
  induction ds generalizing acc with
  | nil => simp [mostRightDisks]
  | cons m ms ih =>
    simp only [mostRightDisks]
    exact Nat.le_trans (le_mostRightSlots acc m.content) (ih _)

theorem endBlock_le_mostRightDisks (acc : Nat) (ds : List metaSector) (i j : Nat) (f : metaFile)
    (h : slotAt ds i j = some f) : f.endBlock ≤ mostRightDisks acc ds := by
  induction ds generalizing acc i with
  | nil => simp [slotAt] at h
  | cons m ms ih =>
    simp only [mostRightDisks]
    cases i with
    | zero =>
      rw [slotAt_zero] at h
      exact Nat.le_trans (endBlock_le_mostRightSlots acc m.content j f h) (le_mostRightDisks _ ms)
    | succ i =>
      rw [slotAt_succ] at h
      exact ih _ i h

theorem mostRightDisks_attained (acc : Nat) (ds : List metaSector) :
    mostRightDisks acc ds = acc ∨
      ∃ i j f, slotAt ds i j = some f ∧ f.endBlock = mostRightDisks acc ds := by
  induction ds generalizing acc with
  | nil => simp [mostRightDisks]
  | cons m ms ih =>
    simp only [mostRightDisks]
    rcases ih (mostRightSlots acc m.content) with h | ⟨i, j, f, hs, hf⟩
    · rcases mostRightSlots_attained acc m.content with h2 | ⟨j, f, hj, hf⟩
      · left
        rw [h, h2]
      · right
        refine ⟨0, j, f, by rw [slotAt_zero]; exact hj, ?_⟩
        rw [h, hf]
    · right
      exact ⟨i + 1, j, f, by rw [slotAt_succ]; exact hs, hf⟩

theorem isMostRight_mostRightDisks (ds : List metaSector) :
    IsMostRight ds (mostRightDisks 0 ds) :=
  ⟨fun i j f h => endBlock_le_mostRightDisks 0 ds i j f h, mostRightDisks_attained 0 ds⟩

theorem IsMostRight.unique {ds : List metaSector} {a b : Nat} (ha : IsMostRight ds a)
    (hb : IsMostRight ds b) : a = b := by
  obtain ⟨ha1, ha2⟩ := ha
  obtain ⟨hb1, hb2⟩ := hb
  rcases ha2 with h0 | ⟨i, j, f, hs, hf⟩ <;> rcases hb2 with h0b | ⟨i2, j2, f2, hs2, hf2⟩
  · omega
  · have := ha1 i2 j2 f2 hs2
    omega
  · have := hb1 i j f hs
    omega
  · have := ha1 i2 j2 f2 hs2
    have := hb1 i j f hs
    omega

theorem mostRightDisks_eq_of_isMostRight {ds : List metaSector} {F : Nat}
    (h : IsMostRight ds F) : mostRightDisks 0 ds = F :=
  (isMostRight_mostRightDisks ds).unique h

/-! ## The search and placement loops -/

theorem lfind_some {α β : Type} (compar : α → β → Int) (key : α) (bs : List β) (j : Nat)
    (h : lfind compar key bs = some j) : ∃ b, bs[j]? = some b ∧ compar key b = 0 := by
  induction bs generalizing j with
  | nil => simp [lfind] at h
  | cons b bs ih =>
    simp only [lfind] at h
    split_ifs at h with hb
    · simp only [Option.some.injEq] at h
      subst h
      exact ⟨b, by simp, hb⟩
    · cases hr : lfind compar key bs with
      | none => simp [hr] at h
      | some k =>
        simp only [hr, Option.map_some', Option.some.injEq] at h
        subst h
        obtain ⟨b2, hb2, hc⟩ := ih k hr
        exact ⟨b2, by rw [List.getElem?_cons_succ]; exact hb2, hc⟩

theorem findLoop_some (C : Config) (name : List Nat) (ds : List metaSector) (i j : Nat)
    (h : findLoop C name ds = some (i, j)) :
    ∃ f, slotAt ds i j = some f ∧ cmpFile C name f = 0 := by
  induction ds generalizing i with
  | nil => simp [findLoop] at h
  | cons m ms ih =>
    simp only [findLoop] at h
    cases hl : lfind (cmpFile C) name m.content with
    | some k =>
      simp only [hl, Option.some.injEq, Prod.mk.injEq] at h
      obtain ⟨rfl, rfl⟩ := h
      rw [slotAt_zero]
      exact lfind_some (cmpFile C) name m.content k hl
    | none =>
      simp only [hl] at h
      cases hr : findLoop C name ms with
      | none => simp [hr] at h
      | some p =>
        obtain ⟨a, b⟩ := p
        simp only [hr, Option.map_some', Option.some.injEq, Prod.mk.injEq] at h
        obtain ⟨rfl, rfl⟩ := h
        rw [slotAt_succ]
        exact ih a hr

theorem placeSlots_some (fs : List metaFile) (j : Nat) (h : placeSlots fs = some j) :
    ∃ f, fs[j]? = some f ∧ f.name.headD 0 = 0 := by
  induction fs generalizing j with
  | nil => simp [placeSlots] at h
  | cons g fs ih =>
    simp only [placeSlots] at h
    split_ifs at h with hg
    · simp only [Option.some.injEq] at h
      subst h
      exact ⟨g, by simp, hg⟩
    · cases hr : placeSlots fs with
      | none => simp [hr] at h
      | some k =>
        simp only [hr, Option.map_some', Option.some.injEq] at h
        subst h
        obtain ⟨f, hf, hz⟩ := ih k hr
        exact ⟨f, by rw [List.getElem?_cons_succ]; exact hf, hz⟩

theorem placeDisks_some (ds : List metaSector) (i j : Nat) (h : placeDisks ds = some (i, j)) :
    ∃ f, slotAt ds i j = some f ∧ f.name.headD 0 = 0 := by
  induction ds generalizing i with
  | nil => simp [placeDisks] at h
  | cons m ms ih =>
    simp only [placeDisks] at h
    cases hl : placeSlots m.content with
    | some k =>
      simp only [hl, Option.some.injEq, Prod.mk.injEq] at h
      obtain ⟨rfl, rfl⟩ := h
      rw [slotAt_zero]
      exact placeSlots_some m.content k hl
    | none =>
      simp only [hl] at h
      cases hr : placeDisks ms with
      | none => simp [hr] at h
      | some p =>
        obtain ⟨a, b⟩ := p
        simp only [hr, Option.map_some', Option.some.injEq, Prod.mk.injEq] at h
        obtain ⟨rfl, rfl⟩ := h
        rw [slotAt_succ]
        exact ih a hr

/-! ## `addFile` and `delFile`, case by case -/

theorem addFile_entry (C : Config) (r : nvmeRaid) (name : List Nat) (blsize i j : Nat)
    (h : (addFile C r name blsize).ret = AddReturn.entry i j) :
    findFile C r name = none ∧ ¬ rightFreeBlocks r < blsize ∧
      placeDisks (active r) = some (i, j) ∧
      (addFile C r name blsize).raid =
        withActive r (modifySlot (placeEntry (rightFreeBlock r) blsize) i j (active r)) := by
  unfold addFile at h ⊢
  split_ifs at h ⊢ with h1 h2 h3
  cases hp : placeDisks (active r) with
  | none => simp [hp] at h
  | some p =>
    obtain ⟨a, b⟩ := p
    simp only [hp, AddReturn.entry.injEq] at h
    obtain ⟨rfl, rfl⟩ := h
    refine ⟨?_, h3, rfl, rfl⟩
    cases hf : findFile C r name with
    | none => rfl
    | some q => simp [hf] at h1

theorem active_modified (r : nvmeRaid) (g : metaFile → metaFile) (i j : Nat) :
    active (withActive r (modifySlot g i j (active r))) = modifySlot g i j (active r) :=
  active_withActive r _ (length_modifySlot g i j (active r))

theorem sub64_add (T F S : Nat) (hS : ¬ sub64 T F < S) :
    sub64 T (F + S) + S = sub64 T F := by
  unfold sub64 u64 at *
  omega

/-- The frontier after the chosen slot receives a range that ends at or beyond it. -/
theorem mostRightDisks_place (ds : List metaSector) (i j : Nat) (f : metaFile) (e : Nat)
    (g : metaFile → metaFile) (hs : slotAt ds i j = some f) (hg : (g f).endBlock = e)
    (he : mostRightDisks 0 ds ≤ e) : mostRightDisks 0 (modifySlot g i j ds) = e := by
  apply mostRightDisks_eq_of_isMostRight
  constructor
  · intro i2 j2 f2 h2
    rw [slotAt_modifySlot] at h2
    split_ifs at h2 with hij
    · rw [hs] at h2
      simp only [Option.map_some', Option.some.injEq] at h2
      rw [← h2, hg]
    · exact Nat.le_trans (endBlock_le_mostRightDisks 0 ds i2 j2 f2 h2) he
  · right
    refine ⟨i, j, g f, ?_, hg⟩
    rw [slotAt_modifySlot, if_pos ⟨rfl, rfl⟩, hs]
    rfl

/-! ## Assembly -/

theorem countInit_eq_countP (C : Config) (ds : List metaSector) (c : Nat)
    (h : countInit C ds = some c) : c = ds.countP (fun m => m.MAGIC == C.MAGICNUMBER) := by
  induction ds generalizing c with
  | nil =>
    simp only [countInit, Option.some.injEq] at h
    simp [← h]
  | cons m ms ih =>
    simp only [countInit, checkMeta] at h
    cases hc : checkMetaConfig C with
    | none => simp [hc] at h
    | some u =>
      simp only [hc] at h
      cases hr : countInit C ms with
      | none => simp [hr] at h
      | some k =>
        simp only [hr, Option.map_some', Option.some.injEq] at h
        have hk := ih k hr
        rw [List.countP_cons, ← hk, ← h]
        split_ifs <;> rfl

theorem delFile_found (C : Config) (r : nvmeRaid) (name : List Nat) (i j : Nat)
    (h : findFile C r name = some (i, j)) :
    delFile C r name = (1, withActive r (modifySlot tombstone i j (active r))) := by
  unfold delFile
  rw [h]

theorem delFile_miss (C : Config) (r : nvmeRaid) (name : List Nat)
    (h : findFile C r name = none) : delFile C r name = (0, r) := by
  unfold delFile
  rw [h]

theorem mostRightDisks_tombstone_le (ds : List metaSector) (i j : Nat) :
    mostRightDisks 0 (modifySlot tombstone i j ds) ≤ mostRightDisks 0 ds := by
  rcases mostRightDisks_attained 0 (modifySlot tombstone i j ds) with h | ⟨i2, j2, f2, hs, hf⟩
  · omega
  · rw [slotAt_modifySlot] at hs
    split_ifs at hs with hij
    · cases h0 : slotAt ds i j with
      | none => simp [h0] at hs
      | some f0 =>
        simp only [h0, Option.map_some', Option.some.injEq] at hs
        have : f2.endBlock = 0 := by rw [← hs]; rfl
        omega
    · have := endBlock_le_mostRightDisks 0 ds i2 j2 f2 hs
      omega

theorem mostRightDisks_tombstone_eq_iff (ds : List metaSector) (i j : Nat) :
    mostRightDisks 0 (modifySlot tombstone i j ds) = mostRightDisks 0 ds ↔
      (mostRightDisks 0 ds = 0 ∨ ∃ i2 j2 f2, (i2, j2) ≠ (i, j) ∧ slotAt ds i2 j2 = some f2 ∧
        f2.endBlock = mostRightDisks 0 ds) := by
  constructor
  · intro heq
    rcases mostRightDisks_attained 0 (modifySlot tombstone i j ds) with h | ⟨i2, j2, f2, hs, hf⟩
    · left
      omega
    · rw [slotAt_modifySlot] at hs
      split_ifs at hs with hij
      · cases h0 : slotAt ds i j with
        | none => simp [h0] at hs
        | some f0 =>
          simp only [h0, Option.map_some', Option.some.injEq] at hs
          have : f2.endBlock = 0 := by rw [← hs]; rfl
          left
          omega
      · right
        refine ⟨i2, j2, f2, ?_, hs, by omega⟩
        intro hp
        simp only [Prod.mk.injEq] at hp
        exact hij hp
  · intro h
    have hle := mostRightDisks_tombstone_le ds i j
    rcases h with h0 | ⟨i2, j2, f2, hne, hs, hf⟩
    · omega
    · have hij : ¬ (i2 = i ∧ j2 = j) := by
        rintro ⟨rfl, rfl⟩
        exact hne rfl
      have hs2 : slotAt (modifySlot tombstone i j ds) i2 j2 = some f2 := by
        rw [slotAt_modifySlot, if_neg hij]
        exact hs
      have := endBlock_le_mostRightDisks 0 _ i2 j2 f2 hs2
      omega

/-! ## Further facts about `addFile` and `findFileDisk` -/

theorem addFile_fits (r : nvmeRaid) (S : Nat) (hT : r.totalBlocks < u64)
    (hF : rightFreeBlock r ≤ r.totalBlocks) (hS : ¬ rightFreeBlocks r < S) :
    rightFreeBlock r + S < u64 := by
  unfold rightFreeBlocks sub64 at hS
  unfold u64 at *
  omega

theorem addFile_raid_cases (C : Config) (r : nvmeRaid) (name : List Nat) (S : Nat) :
    (addFile C r name S).raid = r ∨
      ∃ i j, (addFile C r name S).ret = AddReturn.entry i j ∧
        (addFile C r name S).raid =
          withActive r (modifySlot (placeEntry (rightFreeBlock r) S) i j (active r)) := by
  unfold addFile
  split_ifs
  · exact Or.inl rfl
  · exact Or.inl rfl
  · exact Or.inl rfl
  · cases hp : placeDisks (active r) with
    | none => exact Or.inl rfl
    | some p => exact Or.inr ⟨p.1, p.2, rfl, rfl⟩

theorem addFile_keeps_names (C : Config) (r : nvmeRaid) (name : List Nat) (S i j : Nat) :
    (slotAt (active (addFile C r name S).raid) i j).map (fun f => f.name) =
      (slotAt (active r) i j).map (fun f => f.name) := by
  rcases addFile_raid_cases C r name S with h | ⟨a, b, _, h⟩
  · rw [h]
  · rw [h, active_modified, slotAt_modifySlot]
    split_ifs with hij
    · obtain ⟨rfl, rfl⟩ := hij
      cases slotAt (active r) i j <;> rfl
    · rfl

theorem findFileDiskLoop_of_miss (C : Config) (name : List Nat) (ds : List metaSector)
    (h : findLoop C name ds = none) : findFileDiskLoop C name ds = ds.length := by
  induction ds with
  | nil => rfl
  | cons m ms ih =>
    simp only [findLoop] at h
    cases hl : lfind (cmpFile C) name m.content with
    | some k => simp [hl] at h
    | none =>
      simp only [hl, Option.map_eq_none'] at h
      simp only [findFileDiskLoop, hl, ih h, List.length_cons]

theorem findFileDiskIndex_of_miss (C : Config) (r : nvmeRaid) (name : List Nat)
    (hlen : r.numdisks ≤ r.disk.length) (h : findFile C r name = none) :
    findFileDiskIndex C r name = r.numdisks := by
  unfold findFileDiskIndex
  rw [findFileDiskLoop_of_miss C name (active r) h]
  simp [active, Nat.min_eq_left hlen]

/-! ## First match in scan order -/

theorem lfind_first {α β : Type} (compar : α → β → Int) (key : α) (bs : List β) (j : Nat)
    (h : lfind compar key bs = some j) :
    ∀ k b, k < j → bs[k]? = some b → compar key b ≠ 0 := by
  induction bs generalizing j with
  | nil => simp [lfind] at h
  | cons b0 bs ih =>
    simp only [lfind] at h
    split_ifs at h with hb
    · simp only [Option.some.injEq] at h
      subst h
      intro k b hk
      omega
    · cases hr : lfind compar key bs with
      | none => simp [hr] at h
      | some k0 =>
        simp only [hr, Option.map_some', Option.some.injEq] at h
        subst h
        intro k b hk hkb
        cases k with
        | zero =>
          simp only [List.getElem?_cons_zero, Option.some.injEq] at hkb
          subst hkb
          exact hb
        | succ k =>
          rw [List.getElem?_cons_succ] at hkb
          exact ih k0 hr k b (by omega) hkb

theorem lfind_none_iff {α β : Type} (compar : α → β → Int) (key : α) (bs : List β) :
    lfind compar key bs = none ↔ ∀ (k : Nat) (b : β), bs[k]? = some b → compar key b ≠ 0 := by
  induction bs with
  | nil => simp [lfind]
  | cons b0 bs ih =>
    simp only [lfind]
    constructor
    · intro h k b hkb
      split_ifs at h with hb
      simp only [Option.map_eq_none'] at h
      cases k with
      | zero =>
        simp only [List.getElem?_cons_zero, Option.some.injEq] at hkb
        subst hkb
        exact hb
      | succ k =>
        rw [List.getElem?_cons_succ] at hkb
        exact ih.1 h k b hkb
    · intro h
      have hb : ¬ compar key b0 = 0 := h 0 b0 (by simp)
      rw [if_neg hb, Option.map_eq_none']
      exact ih.2 (fun k b hkb => h (k + 1) b (by rw [List.getElem?_cons_succ]; exact hkb))

theorem findLoop_first (C : Config) (name : List Nat) (ds : List metaSector) (i j : Nat)
    (h : findLoop C name ds = some (i, j)) :
    ∀ i2 j2 f2, scansBefore i2 j2 i j → slotAt ds i2 j2 = some f2 → cmpFile C name f2 ≠ 0 := by
  induction ds generalizing i with
  | nil => simp [findLoop] at h
  | cons m ms ih =>
    simp only [findLoop] at h
    cases hl : lfind (cmpFile C) name m.content with
    | some k =>
      simp only [hl, Option.some.injEq, Prod.mk.injEq] at h
      obtain ⟨rfl, rfl⟩ := h
      intro i2 j2 f2 hbefore hs
      rcases hbefore with hlt | ⟨rfl, hlt⟩
      · omega
      · rw [slotAt_zero] at hs
        exact lfind_first (cmpFile C) name m.content k hl j2 f2 hlt hs
    | none =>
      simp only [hl] at h
      cases hr : findLoop C name ms with
      | none => simp [hr] at h
      | some p =>
        obtain ⟨a, b⟩ := p
        simp only [hr, Option.map_some', Option.some.injEq, Prod.mk.injEq] at h
        obtain ⟨rfl, rfl⟩ := h
        intro i2 j2 f2 hbefore hs
        cases i2 with
        | zero =>
          rw [slotAt_zero] at hs
          exact (lfind_none_iff (cmpFile C) name m.content).1 hl j2 f2 hs
        | succ i2 =>
          rw [slotAt_succ] at hs
          refine ih a hr i2 j2 f2 ?_ hs
          rcases hbefore with hlt | ⟨heq, hlt⟩
          · exact Or.inl (by omega)
          · exact Or.inr ⟨by omega, hlt⟩

theorem findLoop_none_iff (C : Config) (name : List Nat) (ds : List metaSector) :
    findLoop C name ds = none ↔ ∀ i j f, slotAt ds i j = some f → cmpFile C name f ≠ 0 := by
  induction ds with
  | nil => simp [findLoop, slotAt]
  | cons m ms ih =>
    simp only [findLoop]
    constructor
    · intro h i j f hs
      cases hl : lfind (cmpFile C) name m.content with
      | some k => simp [hl] at h
      | none =>
        simp only [hl, Option.map_eq_none'] at h
        cases i with
        | zero =>
          rw [slotAt_zero] at hs
          exact (lfind_none_iff (cmpFile C) name m.content).1 hl j f hs
        | succ i =>
          rw [slotAt_succ] at hs
          exact ih.1 h i j f hs
    · intro h
      have hl : lfind (cmpFile C) name m.content = none :=
        (lfind_none_iff (cmpFile C) name m.content).2
          (fun k b hkb => h 0 k b (by rw [slotAt_zero]; exact hkb))
      simp only [hl, Option.map_eq_none']
      exact ih.2 (fun i j f hs => h (i + 1) j f (by rw [slotAt_succ]; exact hs))

theorem strncmp_head (s1 s2 : List Nat) (n : Nat) (h : strncmp s1 s2 (n + 1) = 0) :
    s1.headD 0 = s2.headD 0 := by
  unfold strncmp at h
  by_contra hne
  rw [if_pos hne] at h
  omega

theorem isLive_iff (f : metaFile) : isLive f = true ↔ f.name.headD 0 ≠ 0 := by
  unfold isLive
  exact bne_iff_ne

theorem cmpFile_live (C : Config) (name : List Nat) (f : metaFile) (hN : 1 ≤ C.NAMELENGTH)
    (hname : name.headD 0 ≠ 0) (h : cmpFile C name f = 0) : f.name.headD 0 ≠ 0 := by
  unfold cmpFile at h
  obtain ⟨n, hn⟩ : ∃ n, C.NAMELENGTH = n + 1 := ⟨C.NAMELENGTH - 1, by omega⟩
  rw [hn] at h
  rw [← strncmp_head name f.name n h]
  exact hname

theorem cmpFile_tombstone (C : Config) (name : List Nat) (f : metaFile) (hN : 1 ≤ C.NAMELENGTH)
    (hname : name.headD 0 ≠ 0) : cmpFile C name (tombstone f) ≠ 0 := by
  intro h
  exact cmpFile_live C name (tombstone f) hN hname h rfl

/-! ## The whole sector table -/

theorem slotAt_active (r : nvmeRaid) (i j : Nat) (f : metaFile)
    (h : slotAt (active r) i j = some f) : i < r.numdisks ∧ slotAt r.disk i j = some f := by
  unfold slotAt active at *
  rw [List.getElem?_take] at h
  by_cases hi : i < r.numdisks
  · rw [if_pos hi] at h
    exact ⟨hi, h⟩
  · rw [if_neg hi] at h
    simp at h

theorem getElem?_active (r : nvmeRaid) (i : Nat) (m : metaSector)
    (h : (active r)[i]? = some m) : r.disk[i]? = some m := by
  unfold active at h
  rw [List.getElem?_take] at h
  by_cases hi : i < r.numdisks
  · rw [if_pos hi] at h
    exact h
  · rw [if_neg hi] at h
    simp at h

theorem withActive_modifySlot (r : nvmeRaid) (g : metaFile → metaFile) (i j : Nat)
    (hi : i < r.numdisks) :
    (withActive r (modifySlot g i j (active r))).disk = modifySlot g i j r.disk := by
  show modifySlot g i j (r.disk.take r.numdisks) ++ r.disk.drop r.numdisks = _
  unfold modifySlot
  rw [← List.take_modify, ← List.drop_modify_of_lt _ i r.numdisks r.disk hi,
    List.take_append_drop]

theorem map_header_modifySlot (g : metaFile → metaFile) (i j : Nat) (ds : List metaSector) :
    (modifySlot g i j ds).map header = ds.map header := by
  unfold modifySlot
  induction ds generalizing i with
  | nil => simp
  | cons m ms ih =>
    cases i with
    | zero => simp [header]
    | succ i =>
      simp only [List.modify_succ_cons, List.map_cons, ih i]

theorem map_header_withActive (r : nvmeRaid) (g : metaFile → metaFile) (i j : Nat) :
    (withActive r (modifySlot g i j (active r))).disk.map header = r.disk.map header := by
  show (modifySlot g i j (r.disk.take r.numdisks) ++ r.disk.drop r.numdisks).map header = _
  rw [List.map_append, map_header_modifySlot, ← List.map_append, List.take_append_drop]

theorem addFile_keeps_headers (C : Config) (r : nvmeRaid) (name : List Nat) (S : Nat) :
    (addFile C r name S).raid.disk.map header = r.disk.map header := by
  rcases addFile_raid_cases C r name S with h | ⟨i, j, _, h⟩
  · rw [h]
  · rw [h, map_header_withActive]

theorem findFileDiskLoop_of_hit (C : Config) (name : List Nat) (ds : List metaSector)
    (i j : Nat) (h : findLoop C name ds = some (i, j)) : findFileDiskLoop C name ds = i := by
  induction ds generalizing i with
  | nil => simp [findLoop] at h
  | cons m ms ih =>
    simp only [findLoop] at h
    cases hl : lfind (cmpFile C) name m.content with
    | some k =>
      simp only [hl, Option.some.injEq, Prod.mk.injEq] at h
      simp only [findFileDiskLoop, hl]
      omega
    | none =>
      simp only [hl] at h
      cases hr : findLoop C name ms with
      | none => simp [hr] at h
      | some p =>
        obtain ⟨a, b⟩ := p
        simp only [hr, Option.map_some', Option.some.injEq, Prod.mk.injEq] at h
        obtain ⟨rfl, rfl⟩ := h
        simp only [findFileDiskLoop, hl, ih a hr]

/-! ## The frontier as a maximum -/

theorem maxEnd_append (a b : List metaFile) : maxEnd (a ++ b) = max (maxEnd a) (maxEnd b) := by
  induction a with
  | nil => simp [maxEnd]
  | cons f fs ih =>
    show max f.endBlock (maxEnd (fs ++ b)) = max (max f.endBlock (maxEnd fs)) (maxEnd b)
    rw [ih]
    omega

theorem mostRightSlots_eq_max (acc : Nat) (fs : List metaFile) :
    mostRightSlots acc fs = max acc (maxEnd fs) := by
  induction fs generalizing acc with
  | nil => simp [mostRightSlots, maxEnd]
  | cons f fs ih =>
    simp only [mostRightSlots, maxEnd, ih]
    split_ifs <;> omega

theorem mostRightDisks_eq_max (acc : Nat) (ds : List metaSector) :
    mostRightDisks acc ds = max acc (maxEnd (allSlots ds)) := by
  induction ds generalizing acc with
  | nil => simp [mostRightDisks, allSlots, maxEnd]
  | cons m ms ih =>
    simp only [mostRightDisks, ih, mostRightSlots_eq_max]
    have : allSlots (m :: ms) = m.content ++ allSlots ms := by simp [allSlots]
    rw [this, maxEnd_append]
    omega

theorem maxEnd_filter_live (fs : List metaFile)
    (h : ∀ f ∈ fs, isLive f = false → f.endBlock = 0) :
    maxEnd (fs.filter isLive) = maxEnd fs := by
  induction fs with
  | nil => rfl
  | cons f fs ih =>
    have ih2 := ih (fun g hg => h g (List.mem_cons_of_mem f hg))
    cases hl : isLive f with
    | true => simp only [List.filter_cons, hl, if_true, maxEnd, ih2]
    | false =>
      have h0 := h f (List.mem_cons_self f fs) hl
      rw [List.filter_cons, hl]
      simp only [maxEnd, h0]
      simpa using ih2

theorem mem_allSlots_of_slotAt (ds : List metaSector) (i j : Nat) (f : metaFile)
    (h : slotAt ds i j = some f) : f ∈ allSlots ds := by
  unfold slotAt at h
  cases hm : ds[i]? with
  | none => simp [hm] at h
  | some m =>
    simp only [hm] at h
    unfold allSlots
    rw [List.mem_flatMap]
    exact ⟨m, List.getElem?_mem hm, List.getElem?_mem h⟩

/-! ## Ranges that do not overlap -/

theorem noOverlap_place (ds : List metaSector) (i j S : Nat) (h : NoOverlap ds) :
    NoOverlap (modifySlot (placeEntry (mostRightDisks 0 ds) S) i j ds) := by
  intro a b a2 b2 f f2 hne hs hs2 x hx
  rw [slotAt_modifySlot] at hs hs2
  split_ifs at hs hs2 with h1 h2 h2
  · obtain ⟨rfl, rfl⟩ := h1
    obtain ⟨rfl, rfl⟩ := h2
    exact hne ⟨rfl, rfl⟩
  · cases h0 : slotAt ds i j with
    | none => simp [h0] at hs
    | some f0 =>
      simp only [h0, Option.map_some', Option.some.injEq] at hs
      have hle := endBlock_le_mostRightDisks 0 ds a2 b2 f2 hs2
      have hst : f.startBlock = mostRightDisks 0 ds := by rw [← hs]; rfl
      omega
  · cases h0 : slotAt ds i j with
    | none => simp [h0] at hs2
    | some f0 =>
      simp only [h0, Option.map_some', Option.some.injEq] at hs2
      have hle := endBlock_le_mostRightDisks 0 ds a b f hs
      have hst : f2.startBlock = mostRightDisks 0 ds := by rw [← hs2]; rfl
      omega
  · exact h a b a2 b2 f f2 hne hs hs2 x hx

theorem noOverlap_tombstone (ds : List metaSector) (i j : Nat) (h : NoOverlap ds) :
    NoOverlap (modifySlot tombstone i j ds) := by
  intro a b a2 b2 f f2 hne hs hs2 x hx
  rw [slotAt_modifySlot] at hs hs2
  split_ifs at hs hs2 with h1 h2 h2
  · obtain ⟨rfl, rfl⟩ := h1
    obtain ⟨rfl, rfl⟩ := h2
    exact hne ⟨rfl, rfl⟩
  · cases h0 : slotAt ds i j with
    | none => simp [h0] at hs
    | some f0 =>
      simp only [h0, Option.map_some', Option.some.injEq] at hs
      have hend : f.endBlock = 0 := by rw [← hs]; rfl
      omega
  · cases h0 : slotAt ds i j with
    | none => simp [h0] at hs2
    | some f0 =>
      simp only [h0, Option.map_some', Option.some.injEq] at hs2
      have hend : f2.endBlock = 0 := by rw [← hs2]; rfl
      omega
  · exact h a b a2 b2 f f2 hne hs hs2 x hx

theorem noOverlap_addFile (C : Config) (r : nvmeRaid) (name : List Nat) (S : Nat)
    (h : NoOverlap (active r)) : NoOverlap (active (addFile C r name S).raid) := by
  rcases addFile_raid_cases C r name S with hr | ⟨i, j, _, hr⟩
  · rw [hr]
    exact h
  · rw [hr, active_modified]
    exact noOverlap_place (active r) i j S h

theorem noOverlap_delFile (C : Config) (r : nvmeRaid) (name : List Nat)
    (h : NoOverlap (active r)) : NoOverlap (active (delFile C r name).2) := by
  cases hfind : findFile C r name with
  | none =>
    rw [delFile_miss C r name hfind]
    exact h
  | some p =>
    obtain ⟨i, j⟩ := p
    rw [delFile_found C r name i j hfind, active_modified]
    exact noOverlap_tombstone (active r) i j h

theorem noOverlap_run (C : Config) (r : nvmeRaid) (ops : List DirOp)
    (h : NoOverlap (active r)) : NoOverlap (active (run C r ops)) := by
  induction ops generalizing r with
  | nil => exact h
  | cons op ops ih =>
    show NoOverlap (active (run C (applyOp C r op) ops))
    apply ih
    cases op with
    | add name blsize => exact noOverlap_addFile C r name blsize h
    | del name => exact noOverlap_delFile C r name h

/-! ## Assembly of a formatted array -/

theorem byteAt_zero (s : List Nat) : byteAt s 0 = s.headD 0 := by
  cases s <;> rfl

theorem byteAt_tail (s : List Nat) (k : Nat) : byteAt s.tail k = byteAt s (k + 1) := by
  cases s <;> simp [byteAt]

/-- The comparison is 0 exactly when the two buffers agree on each of the first `n` bytes up
to and including the first NUL of `s1`. -/
theorem strncmp_eq_zero_iff (s1 s2 : List Nat) (n : Nat) :
    strncmp s1 s2 n = 0 ↔
      ∀ k, k < n → (∀ k2, k2 < k → byteAt s1 k2 ≠ 0) → byteAt s1 k = byteAt s2 k := by
  induction n generalizing s1 s2 with
  | zero => simp [strncmp]
  | succ n ih =>
    unfold strncmp
    by_cases hne : s1.headD 0 ≠ s2.headD 0
    · rw [if_pos hne]
      constructor
      · intro h
        omega
      · intro h
        have := h 0 (by omega) (by intro k2 hk2; omega)
        rw [byteAt_zero, byteAt_zero] at this
        exact absurd this hne
    · rw [if_neg hne]
      have heq : s1.headD 0 = s2.headD 0 := by
        by_contra hc
        exact hne hc
      by_cases hz : s1.headD 0 = 0
      · rw [if_pos hz]
        constructor
        · intro _ k hk hpre
          cases k with
          | zero => rw [byteAt_zero, byteAt_zero]; exact heq
          | succ k =>
            have := hpre 0 (by omega)
            rw [byteAt_zero] at this
            exact absurd hz this
        · intro _
          rfl
      · rw [if_neg hz, ih]
        constructor
        · intro h k hk hpre
          cases k with
          | zero => rw [byteAt_zero, byteAt_zero]; exact heq
          | succ k =>
            rw [← byteAt_tail, ← byteAt_tail]
            apply h k (by omega)
            intro k2 hk2
            rw [byteAt_tail]
            exact hpre (k2 + 1) (by omega)
        · intro h k hk hpre
          rw [byteAt_tail, byteAt_tail]
          apply h (k + 1) (by omega)
          intro k2 hk2
          cases k2 with
          | zero => rw [byteAt_zero]; exact hz
          | succ k2 =>
            rw [← byteAt_tail]
            exact hpre k2 (by omega)

/-! ## Names under the directory operations -/

theorem mem_indexedSlots (ds : List metaSector) (i j : Nat) (f : metaFile) :
    ((i, j), f) ∈ indexedSlots ds ↔ slotAt ds i j = some f := by
  unfold indexedSlots slotAt
  simp only [List.mem_flatMap, List.mem_map, Prod.mk.injEq, Prod.exists,
    List.mk_mem_enum_iff_getElem?]
  constructor
  · rintro ⟨a, m, hm, b, g, hg, ⟨rfl, rfl⟩, rfl⟩
    rw [hm]
    exact hg
  · intro h
    cases hm : ds[i]? with
    | none => simp [hm] at h
    | some m =>
      simp only [hm] at h
      exact ⟨i, m, hm, j, f, h, ⟨rfl, rfl⟩, rfl⟩

theorem uniqueNames_of_indexed (C : Config) (ds : List metaSector)
    (h : ∀ p ∈ indexedSlots ds, ∀ q ∈ indexedSlots ds, p.1 ≠ q.1 →
      isLive p.2 = true → isLive q.2 = true → cmpFile C p.2.name q.2 ≠ 0) :
    UniqueNames C ds := by
  intro i j i2 j2 f f2 hne hs hs2 hl hl2
  refine h ((i, j), f) ((mem_indexedSlots ds i j f).2 hs) ((i2, j2), f2)
    ((mem_indexedSlots ds i2 j2 f2).2 hs2) ?_ hl hl2
  intro heq
  simp only [Prod.mk.injEq] at heq
  exact hne heq

theorem slotAt_modifySlot_name (g : metaFile → metaFile) (hg : ∀ x, (g x).name = x.name)
    (i0 j0 i j : Nat) (ds : List metaSector) (f2 : metaFile)
    (h : slotAt (modifySlot g i0 j0 ds) i j = some f2) :
    ∃ f, slotAt ds i j = some f ∧ f.name = f2.name := by
  rw [slotAt_modifySlot] at h
  split_ifs at h with hij
  · obtain ⟨rfl, rfl⟩ := hij
    cases h0 : slotAt ds i j with
    | none => simp [h0] at h
    | some f0 =>
      simp only [h0, Option.map_some', Option.some.injEq] at h
      exact ⟨f0, rfl, by rw [← h, hg]⟩
  · exact ⟨f2, h, rfl⟩

theorem isLive_of_name (f g : metaFile) (h : f.name = g.name) : isLive f = isLive g := by
  unfold isLive
  rw [h]

theorem cmpFile_of_name (C : Config) (key : List Nat) (f g : metaFile) (h : f.name = g.name) :
    cmpFile C key f = cmpFile C key g := by
  unfold cmpFile
  rw [h]

theorem uniqueNames_modifySlot (C : Config) (g : metaFile → metaFile)
    (hg : ∀ x, (g x).name = x.name) (i0 j0 : Nat) (ds : List metaSector)
    (h : UniqueNames C ds) : UniqueNames C (modifySlot g i0 j0 ds) := by
  intro i j i2 j2 f f2 hne hs hs2 hl hl2
  obtain ⟨a, ha, hna⟩ := slotAt_modifySlot_name g hg i0 j0 i j ds f hs
  obtain ⟨b, hb, hnb⟩ := slotAt_modifySlot_name g hg i0 j0 i2 j2 ds f2 hs2
  rw [← isLive_of_name a f hna] at hl
  rw [← isLive_of_name b f2 hnb] at hl2
  rw [← hna, ← cmpFile_of_name C a.name b f2 hnb]
  exact h i j i2 j2 a b hne ha hb hl hl2

theorem uniqueNames_tombstone (C : Config) (i0 j0 : Nat) (ds : List metaSector)
    (h : UniqueNames C ds) : UniqueNames C (modifySlot tombstone i0 j0 ds) := by
  intro i j i2 j2 f f2 hne hs hs2 hl hl2
  rw [slotAt_modifySlot] at hs hs2
  have hdead : ∀ f0 : metaFile, isLive (tombstone f0) = false := fun f0 => rfl
  split_ifs at hs hs2 with h1 h2 h2
  · obtain ⟨rfl, rfl⟩ := h1
    obtain ⟨rfl, rfl⟩ := h2
    exact absurd ⟨rfl, rfl⟩ hne
  · cases h0 : slotAt ds i0 j0 with
    | none => simp [h0] at hs
    | some f0 =>
      simp only [h0, Option.map_some', Option.some.injEq] at hs
      rw [← hs, hdead f0] at hl
      exact absurd hl (by decide)
  · cases h0 : slotAt ds i0 j0 with
    | none => simp [h0] at hs2
    | some f0 =>
      simp only [h0, Option.map_some', Option.some.injEq] at hs2
      rw [← hs2, hdead f0] at hl2
      exact absurd hl2 (by decide)
  · exact h i j i2 j2 f f2 hne hs hs2 hl hl2

/-! ## What `blocksLeft` subtracts -/

theorem blocksLeftSlots_eq (u : Nat) (fs : List metaFile) :
    blocksLeftSlots u fs =
      (fs.getLast?.map (fun f => sub64 f.endBlock f.startBlock)).getD u := by
  induction fs generalizing u with
  | nil => rfl
  | cons f fs ih =>
    simp only [blocksLeftSlots]
    rw [ih]
    cases fs with
    | nil => rfl
    | cons g gs =>
      rw [List.getLast?_cons_cons]
      cases hl : (g :: gs).getLast? with
      | none => simp at hl
      | some x => rfl

theorem blocksLeftDisks_eq (u : Nat) (ds : List metaSector) :
    blocksLeftDisks u ds =
      ((allSlots ds).getLast?.map (fun f => sub64 f.endBlock f.startBlock)).getD u := by
  induction ds generalizing u with
  | nil => rfl
  | cons m ms ih =>
    simp only [blocksLeftDisks]
    rw [ih, blocksLeftSlots_eq]
    have : allSlots (m :: ms) = m.content ++ allSlots ms := by simp [allSlots]
    rw [this, List.getLast?_append]
    cases h1 : (allSlots ms).getLast? with
    | some f => simp
    | none => simp

/-- The value `blocksLeft` returns: `totalBlocks` minus the range of the last slot of the
last device in use, and `totalBlocks` itself when there is no slot. -/
theorem blocksLeft_eq (r : nvmeRaid) :
    blocksLeft r = sub64 r.totalBlocks
      (((allSlots (active r)).getLast?.map (fun f => sub64 f.endBlock f.startBlock)).getD 0) := by
  unfold blocksLeft
  rw [blocksLeftDisks_eq]

/-! ## The frontier along a sequence of insertions -/

theorem placeSlots_modify (g : metaFile → metaFile) (hg : ∀ x, (g x).name = x.name) (j : Nat)
    (fs : List metaFile) : placeSlots (fs.modify g j) = placeSlots fs := by
  induction fs generalizing j with
  | nil => simp
  | cons f fs ih =>
    cases j with
    | zero => simp [placeSlots, hg]
    | succ j =>
      rw [List.modify_succ_cons]
      show (if f.name.headD 0 = 0 then some 0
        else (placeSlots (fs.modify g j)).map (· + 1)) = placeSlots (f :: fs)
      rw [ih j]
      rfl

theorem placeDisks_modifySlot (g : metaFile → metaFile) (hg : ∀ x, (g x).name = x.name)
    (i j : Nat) (ds : List metaSector) : placeDisks (modifySlot g i j ds) = placeDisks ds := by
  unfold modifySlot
  induction ds generalizing i with
  | nil => simp
  | cons m ms ih =>
    cases i with
    | zero => simp [placeDisks, placeSlots_modify g hg]
    | succ i =>
      rw [List.modify_succ_cons]
      show (match placeSlots m.content with
        | some k => some (0, k)
        | none => (placeDisks (ms.modify
            (fun m => { m with content := m.content.modify g j }) i)).map
              (fun p => (p.1 + 1, p.2))) = placeDisks (m :: ms)
      rw [ih i]
      rfl

/-- The placement loop of `addFile` finds the same slot after `addFile` as before it. -/
theorem placeDisks_addFile (C : Config) (r : nvmeRaid) (name : List Nat) (S : Nat) :
    placeDisks (active (addFile C r name S).raid) = placeDisks (active r) := by
  rcases addFile_raid_cases C r name S with h | ⟨i, j, _, h⟩
  · rw [h]
  · rw [h, active_modified]
    exact placeDisks_modifySlot (placeEntry (rightFreeBlock r) S) (fun _ => rfl) i j (active r)

/-- Two successful `addFile` calls in a row return the same slot. -/
theorem addFile_twice_same_slot (C : Config) (r : nvmeRaid) (name name2 : List Nat)
    (S S2 i j i2 j2 : Nat) (h1 : (addFile C r name S).ret = AddReturn.entry i j)
    (h2 : (addFile C (addFile C r name S).raid name2 S2).ret = AddReturn.entry i2 j2) :
    i2 = i ∧ j2 = j := by
  obtain ⟨_, _, hp1, _⟩ := addFile_entry C r name S i j h1
  obtain ⟨_, _, hp2, _⟩ := addFile_entry C _ name2 S2 i2 j2 h2
  rw [placeDisks_addFile, hp1] at hp2
  simp only [Option.some.injEq, Prod.mk.injEq] at hp2
  exact ⟨hp2.1.symm, hp2.2.symm⟩

/-! ## Ranges in the table after a run -/

/-- Starting from an array whose slots all have `startBlock = endBlock = 0`, after any
sequence of `addFile` and `delFile` calls no block lies in the ranges that the table records
at two different positions. -/
theorem noOverlap_invariant (C : Config) (r : nvmeRaid) (ops : List DirOp)
    (hfresh : ∀ f ∈ allSlots (active r), f.startBlock = 0 ∧ f.endBlock = 0) :
    NoOverlap (active (run C r ops)) := by
  apply noOverlap_run
  intro i j i2 j2 f f2 _ hs _ b hb
  have := (hfresh f (mem_allSlots_of_slotAt (active r) i j f hs)).2
  omega

/-! ## Claims -/

/-- Claim C1, refuted as stated: on `wrapRaid` (10 blocks, a recorded file ending at block
`2 ^ 64 - 1`) `addFile` succeeds for 5 blocks, the new entry ends at block 4 and not at
`F + 5`, and `rightFreeBlocks` is 11 before and after the call. -/
theorem addFile_wrap_counterexample :
    (addFile cfg wrapRaid [97] 5).ret = AddReturn.entry 0 1 ∧
      rightFreeBlock wrapRaid = 18446744073709551615 ∧
      (slotAt (active (addFile cfg wrapRaid [97] 5).raid) 0 1).map (fun f => f.endBlock) = some 4 ∧
      ¬ ((slotAt (active (addFile cfg wrapRaid [97] 5).raid) 0 1).map (fun f => f.endBlock) =
          some (rightFreeBlock wrapRaid + 5)) ∧
      rightFreeBlocks wrapRaid = 11 ∧
      rightFreeBlocks (addFile cfg wrapRaid [97] 5).raid = 11 := by
  decide

/-- Claim C1, amended: when `addFile` succeeds and `F + S` fits in 64 bits, where `F` is
`rightFreeBlock` before the call, the returned entry has `startBlock = F` and
`endBlock = F + S`, and `rightFreeBlocks` afterwards is exactly `S` less than before. -/
theorem addFile_appends (C : Config) (r : nvmeRaid) (name : List Nat) (S i j : Nat)
    (hret : (addFile C r name S).ret = AddReturn.entry i j)
    (hfit : rightFreeBlock r + S < u64) :
    ∃ f, slotAt (active (addFile C r name S).raid) i j = some f ∧
      f.startBlock = rightFreeBlock r ∧ f.endBlock = rightFreeBlock r + S ∧
      rightFreeBlocks (addFile C r name S).raid + S = rightFreeBlocks r := by
  obtain ⟨_, hS, hp, hraid⟩ := addFile_entry C r name S i j hret
  obtain ⟨f0, hf0, _⟩ := placeDisks_some (active r) i j hp
  have hend : (placeEntry (rightFreeBlock r) S f0).endBlock = rightFreeBlock r + S := by
    show add64 (rightFreeBlock r) S = rightFreeBlock r + S
    exact Nat.mod_eq_of_lt hfit
  have hfront : rightFreeBlock (addFile C r name S).raid = rightFreeBlock r + S := by
    rw [hraid]
    unfold rightFreeBlock
    rw [active_modified]
    exact mostRightDisks_place (active r) i j f0 _ _ hf0 hend (Nat.le_add_right _ _)
  refine ⟨placeEntry (rightFreeBlock r) S f0, ?_, rfl, hend, ?_⟩
  · rw [hraid, active_modified, slotAt_modifySlot, if_pos ⟨rfl, rfl⟩, hf0]
    rfl
  · unfold rightFreeBlocks
    rw [hfront, hraid, totalBlocks_withActive]
    exact sub64_add r.totalBlocks (rightFreeBlock r) S hS

/-- Claim C1, amended, on `twoFiles`: inserting "c" with 10 blocks at frontier 150. -/
theorem addFile_appends_witness :
    (addFile cfg twoFiles [99] 10).ret = AddReturn.entry 0 1 ∧ rightFreeBlock twoFiles = 150 ∧
      ∃ f, slotAt (active (addFile cfg twoFiles [99] 10).raid) 0 1 = some f ∧
        f.startBlock = rightFreeBlock twoFiles ∧ f.endBlock = rightFreeBlock twoFiles + 10 ∧
        rightFreeBlocks (addFile cfg twoFiles [99] 10).raid + 10 = rightFreeBlocks twoFiles :=
  ⟨by decide, by decide, addFile_appends cfg twoFiles [99] 10 0 1 (by decide) (by decide)⟩

/-- Claim C2, the code at a failing input: on a freshly formatted array `addFile` of "a"
succeeds and returns slot `(0, 0)` with range `[0, 100)`, yet the slot's name is still empty,
`findFile` of "a" on the resulting array finds nothing, and the caller's buffer has been
overwritten with the slot's empty name. -/
theorem addFile_name_not_stored :
    (addFile cfg fresh2 [97] 100).ret = AddReturn.entry 0 0 ∧
      slotAt (active (addFile cfg fresh2 [97] 100).raid) 0 0 = some ⟨[0, 0, 0, 0], 0, 100⟩ ∧
      findFile cfg (addFile cfg fresh2 [97] 100).raid [97] = none ∧
      (addFile cfg fresh2 [97] 100).name = [0, 0, 0, 0] := by
  decide

/-- Claim C3: `addFile` returns through its duplicate check exactly when `findFile` succeeds
on the array before the call, and whenever `addFile` returns `NULL` the array is unchanged. -/
theorem addFile_duplicate (C : Config) (r : nvmeRaid) (name : List Nat) (S : Nat) :
    ((addFile C r name S).ret = AddReturn.nullDuplicate ↔ (findFile C r name).isSome = true) ∧
      ((addFile C r name S).ret.ptr = none → (addFile C r name S).raid = r) := by
  unfold addFile
  split_ifs with h1 h2 h3
  · simp [h1, AddReturn.ptr]
  · simp [h1, AddReturn.ptr]
  · simp [h1, AddReturn.ptr]
  · cases hp : placeDisks (active r) with
    | none => simp [h1, AddReturn.ptr]
    | some p => simp [h1, AddReturn.ptr]

/-- Claim C3 on `twoFiles`: inserting "b" again is a duplicate and changes nothing. -/
theorem addFile_duplicate_witness :
    (findFile cfg twoFiles [98]).isSome = true ∧
      (addFile cfg twoFiles [98] 10).ret = AddReturn.nullDuplicate ∧
      (addFile cfg twoFiles [98] 10).ret.ptr = none ∧
      (addFile cfg twoFiles [98] 10).raid = twoFiles :=
  ⟨by decide, (addFile_duplicate cfg twoFiles [98] 10).1.2 (by decide), by decide,
    (addFile_duplicate cfg twoFiles [98] 10).2 (by decide)⟩

/-- Claim C4, the code at a failing input: on `firstDiskFull` the name "c" is absent, slot
`(1, 0)` is empty and 1850 blocks are free, yet `addFile` returns `NULL` from its fullness
check; on `allSlotsTaken`, where no slot is empty, that check does not fire and the `NULL`
comes from the end of the placement loop or, for a large request, from the space check. -/
theorem addFile_full_check_misfires :
    findFile cfg firstDiskFull [99] = none ∧
      placeDisks (active firstDiskFull) = some (1, 0) ∧
      rightFreeBlocks firstDiskFull = 1850 ∧
      (addFile cfg firstDiskFull [99] 10).ret = AddReturn.nullFull ∧
      placeDisks (active allSlotsTaken) = none ∧
      (addFile cfg allSlotsTaken [122] 10).ret = AddReturn.nullNoSlot ∧
      (addFile cfg allSlotsTaken [122] 5000).ret = AddReturn.nullNoSpace := by
  decide

/-- Claim C5, the code at a failing input: when no slot matches, `findFileDisk` reads
`disk[numdisks]`; on `spare2` that is an unused zeroed sector and the value returned is 0, the
identity of device 0; on `fresh2` the read falls beyond the sectors in memory. -/
theorem findFileDisk_miss_reads_past_table :
    findFile cfg spare2 [97] = none ∧ spare2.numdisks = 2 ∧
      findFileDiskIndex cfg spare2 [97] = 2 ∧ findFileDisk cfg spare2 [97] = some 0 ∧
      findFile cfg fresh2 [97] = none ∧ findFileDiskIndex cfg fresh2 [97] = 2 ∧
      findFileDisk cfg fresh2 [97] = none := by
  decide

/-- Claim C6, the code at a failing input: `createRaid` returns `wrongWidth`, whose only
sector records `totalDisks = 5` in an array of one device, and returns `sameId`, whose
sector at position 1 has `diskId = 0`. -/
theorem createRaid_accepts_broken_invariant :
    createRaid cfg wrongWidth = Outcome.returned wrongWidth ∧
      (wrongWidth.disk[0]?).map (fun m => m.totalDisks) = some 5 ∧ wrongWidth.numdisks = 1 ∧
      createRaid cfg sameId = Outcome.returned sameId ∧
      (sameId.disk[1]?).map (fun m => m.diskId) = some 0 := by
  decide

/-- Claim C8: when `cnt` of the `numdisks` sectors carry the magic constant and
`0 < cnt < numdisks`, `createRaid` exits, and the array at the point of exit is the array it
was given. -/
theorem createRaid_mixed_exits (C : Config) (r : nvmeRaid) (cnt : Nat)
    (hcnt : (active r).countP (fun m => m.MAGIC == C.MAGICNUMBER) = cnt)
    (hpos : 0 < cnt) (hlt : cnt < r.numdisks) : createRaid C r = Outcome.exited r := by
  unfold createRaid
  cases hc : countInit C (active r) with
  | none => rfl
  | some c =>
    have := countInit_eq_countP C (active r) c hc
    simp only
    rw [if_neg (by omega), if_pos (by omega)]

/-- Claim C8 on `mixed2`, one formatted device next to one unformatted device. -/
theorem createRaid_mixed_exits_witness :
    (active mixed2).countP (fun m => m.MAGIC == cfg.MAGICNUMBER) = 1 ∧ 1 < mixed2.numdisks ∧
      createRaid cfg mixed2 = Outcome.exited mixed2 :=
  ⟨by decide, by decide, createRaid_mixed_exits cfg mixed2 1 (by decide) (by decide) (by decide)⟩

/-- Claim C9, refuted as stated: on `twoFiles` the file "b" `[100, 150)` ends at the frontier
150; `delFile` of "b" brings `rightFreeBlock` down to 100, and the next `addFile`, of "c" with
10 blocks, returns the range `[100, 110)`. -/
theorem delFile_lowers_frontier_counterexample :
    findFile cfg twoFiles [98] = some (1, 0) ∧
      slotAt (active twoFiles) 1 0 = some ⟨[98, 0, 0, 0], 100, 150⟩ ∧
      rightFreeBlock twoFiles = 150 ∧
      (delFile cfg twoFiles [98]).1 = 1 ∧
      rightFreeBlock (delFile cfg twoFiles [98]).2 = 100 ∧
      (addFile cfg (delFile cfg twoFiles [98]).2 [99] 10).ret = AddReturn.entry 0 1 ∧
      slotAt (active (addFile cfg (delFile cfg twoFiles [98]).2 [99] 10).raid) 0 1 =
        some ⟨[0, 0, 0, 0], 100, 110⟩ := by
  decide

/-- Claim C9, amended: `delFile` never raises `rightFreeBlock`, and leaves it unchanged
exactly when no slot matches the name, or the frontier is 0, or a slot other than the one
deleted has its `endBlock` at the frontier. -/
theorem delFile_frontier (C : Config) (r : nvmeRaid) (name : List Nat) :
    rightFreeBlock (delFile C r name).2 ≤ rightFreeBlock r ∧
      (rightFreeBlock (delFile C r name).2 = rightFreeBlock r ↔
        (findFile C r name = none ∨ rightFreeBlock r = 0 ∨
          ∃ i j i2 j2 f2, findFile C r name = some (i, j) ∧ (i2, j2) ≠ (i, j) ∧
            slotAt (active r) i2 j2 = some f2 ∧ f2.endBlock = rightFreeBlock r)) := by
  cases hfind : findFile C r name with
  | none =>
    rw [delFile_miss C r name hfind]
    simp
  | some p =>
    obtain ⟨i, j⟩ := p
    rw [delFile_found C r name i j hfind]
    unfold rightFreeBlock
    rw [active_modified]
    refine ⟨mostRightDisks_tombstone_le (active r) i j, ?_⟩
    rw [mostRightDisks_tombstone_eq_iff]
    constructor
    · rintro (h0 | ⟨i2, j2, f2, hne, hs, hf⟩)
      · exact Or.inr (Or.inl h0)
      · exact Or.inr (Or.inr ⟨i, j, i2, j2, f2, rfl, hne, hs, hf⟩)
    · rintro (hn | h0 | ⟨a, b, i2, j2, f2, hab, hne, hs, hf⟩)
      · simp at hn
      · exact Or.inl h0
      · simp only [Option.some.injEq, Prod.mk.injEq] at hab
        obtain ⟨rfl, rfl⟩ := hab
        exact Or.inr ⟨i2, j2, f2, hne, hs, hf⟩

/-- Claim C11, the code at a failing input: on a freshly formatted array `addFile` of "a"
succeeds and returns a slot of device 0, and `totalFiles` is 0 on both devices before and
after the call. -/
theorem addFile_totalFiles_not_counted :
    (addFile cfg fresh2 [97] 100).ret = AddReturn.entry 0 0 ∧
      fresh2.disk.map (fun m => m.totalFiles) = [0, 0] ∧
      (addFile cfg fresh2 [97] 100).raid.disk.map (fun m => m.totalFiles) = [0, 0] := by
  decide

/-- Claim C12, refuted as stated: on a freshly formatted array, which has no live slot,
`findFile` of the empty name returns slot `(0, 0)`, an empty slot. -/
theorem findFile_empty_name_counterexample :
    (allSlots (active fresh2)).filter isLive = [] ∧
      findFile cfg fresh2 [] = some (0, 0) ∧
      slotAt (active fresh2) 0 0 = some emptySlot ∧ isLive emptySlot = false := by
  decide

/-- Claim C12, amended: for a name whose first byte is not zero (and `NAMELENGTH ≥ 1`),
`findFile` returns the first slot in scan order on which the `NAMELENGTH`-bounded comparison
is 0, that slot is live, and `findFile` returns `NULL` exactly when no live slot matches. -/
theorem findFile_first_match (C : Config) (r : nvmeRaid) (name : List Nat)
    (hN : 1 ≤ C.NAMELENGTH) (hname : name.headD 0 ≠ 0) :
    (∀ i j, findFile C r name = some (i, j) →
      ∃ f, slotAt (active r) i j = some f ∧ isLive f = true ∧ cmpFile C name f = 0 ∧
        ∀ i2 j2 f2, scansBefore i2 j2 i j → slotAt (active r) i2 j2 = some f2 →
          cmpFile C name f2 ≠ 0) ∧
      (findFile C r name = none ↔
        ∀ i j f, slotAt (active r) i j = some f → ¬ (isLive f = true ∧ cmpFile C name f = 0)) := by
  constructor
  · intro i j h
    obtain ⟨f, hf, hc⟩ := findLoop_some C name (active r) i j h
    refine ⟨f, hf, ?_, hc, findLoop_first C name (active r) i j h⟩
    exact (isLive_iff f).2 (cmpFile_live C name f hN hname hc)
  · unfold findFile
    rw [findLoop_none_iff]
    constructor
    · intro h i j f hs hlive
      exact h i j f hs hlive.2
    · intro h i j f hs hc
      exact h i j f hs ⟨(isLive_iff f).2 (cmpFile_live C name f hN hname hc), hc⟩

/-- Claim C12, amended, on `twoFiles`: looking up "b" finds slot `(1, 0)`. -/
theorem findFile_first_match_witness :
    findFile cfg twoFiles [98] = some (1, 0) ∧
      ∃ f, slotAt (active twoFiles) 1 0 = some f ∧ isLive f = true ∧ cmpFile cfg [98] f = 0 ∧
        ∀ i2 j2 f2, scansBefore i2 j2 1 0 → slotAt (active twoFiles) i2 j2 = some f2 →
          cmpFile cfg [98] f2 ≠ 0 :=
  ⟨by decide, (findFile_first_match cfg twoFiles [98] (by decide) (by decide)).1 1 0 (by decide)⟩

/-- Claim C13, refuted as stated: on a freshly formatted array `delFile` of the empty name
returns 1 and `findFile` of the empty name still finds slot `(0, 0)`; on `dupNames`, where two
slots are named "a", `delFile` of "a" returns 1 and `findFile` of "a" finds slot `(1, 0)`. -/
theorem findFile_after_delFile_counterexample :
    (delFile cfg fresh2 []).1 = 1 ∧ findFile cfg (delFile cfg fresh2 []).2 [] = some (0, 0) ∧
      (delFile cfg dupNames [97]).1 = 1 ∧
      findFile cfg (delFile cfg dupNames [97]).2 [97] = some (1, 0) := by
  decide

/-- Claim C13, amended: for a name whose first byte is not zero (and `NAMELENGTH ≥ 1`) that
at most one slot matches, `findFile` returns `NULL` on the array left by `delFile`; and for
any name that no slot matches, `findFile` returns `NULL`. -/
theorem findFile_after_delFile (C : Config) (r : nvmeRaid) (name : List Nat) :
    (1 ≤ C.NAMELENGTH → name.headD 0 ≠ 0 →
      (∀ i j i2 j2 f f2, slotAt (active r) i j = some f → slotAt (active r) i2 j2 = some f2 →
        cmpFile C name f = 0 → cmpFile C name f2 = 0 → i = i2 ∧ j = j2) →
      findFile C (delFile C r name).2 name = none) ∧
      ((∀ i j f, slotAt (active r) i j = some f → cmpFile C name f ≠ 0) →
        findFile C r name = none) := by
  constructor
  · intro hN hname huniq
    cases hfind : findFile C r name with
    | none =>
      rw [delFile_miss C r name hfind]
      exact hfind
    | some p =>
      obtain ⟨i, j⟩ := p
      rw [delFile_found C r name i j hfind]
      obtain ⟨f, hf, hc⟩ := findLoop_some C name (active r) i j hfind
      unfold findFile
      rw [active_modified, findLoop_none_iff]
      intro i2 j2 f2 hs
      rw [slotAt_modifySlot] at hs
      split_ifs at hs with hij
      · rw [hf] at hs
        simp only [Option.map_some', Option.some.injEq] at hs
        rw [← hs]
        exact cmpFile_tombstone C name f hN hname
      · intro hc2
        exact hij (huniq i2 j2 i j f2 f hs hf hc2 hc)
  · intro h
    exact (findLoop_none_iff C name (active r)).2 h

/-- Claim C13, amended, on `twoFiles`: after `delFile` of "a", `findFile` of "a" finds
nothing; and `findFile` of "z", which no slot holds, finds nothing. -/
theorem findFile_after_delFile_witness :
    findFile cfg twoFiles [97] = some (0, 0) ∧
      findFile cfg (delFile cfg twoFiles [97]).2 [97] = none ∧
      findFile cfg twoFiles [122] = none :=
  ⟨by decide,
    (findFile_after_delFile cfg twoFiles [97]).1 (by decide) (by decide) (by
      have hrest := (findLoop_none_iff cfg [97] (modifySlot tombstone 0 0 (active twoFiles))).1
        (by decide)
      have key : ∀ i j f, slotAt (active twoFiles) i j = some f → cmpFile cfg [97] f = 0 →
          i = 0 ∧ j = 0 := by
        intro i j f h c
        by_contra hne
        exact hrest i j f (by rw [slotAt_modifySlot, if_neg hne]; exact h) c
      intro i j i2 j2 f f2 h1 h2 c1 c2
      obtain ⟨rfl, rfl⟩ := key i j f h1 c1
      obtain ⟨rfl, rfl⟩ := key i2 j2 f2 h2 c2
      exact ⟨rfl, rfl⟩),
    (findFile_after_delFile cfg twoFiles [122]).2
      ((findLoop_none_iff cfg [122] (active twoFiles)).1 (by decide))⟩

/-- Claim C14: when `findFile` finds the name in slot `(i, j)`, `delFile` returns 1, sets
that slot's first name byte and its `startBlock` and `endBlock` to 0, and leaves every other
slot, every sector's header fields, `numdisks` and `totalBlocks` unchanged; when `findFile`
finds nothing, `delFile` returns 0 and the array is unchanged. -/
theorem delFile_effect (C : Config) (r : nvmeRaid) (name : List Nat) :
    (∀ i j, findFile C r name = some (i, j) →
      (delFile C r name).1 = 1 ∧
      (∃ f, slotAt r.disk i j = some f ∧
        slotAt (delFile C r name).2.disk i j = some ⟨0 :: f.name.tail, 0, 0⟩) ∧
      (∀ i2 j2, ¬ (i2 = i ∧ j2 = j) →
        slotAt (delFile C r name).2.disk i2 j2 = slotAt r.disk i2 j2) ∧
      (delFile C r name).2.disk.map header = r.disk.map header ∧
      (delFile C r name).2.numdisks = r.numdisks ∧
      (delFile C r name).2.totalBlocks = r.totalBlocks) ∧
      (findFile C r name = none → delFile C r name = (0, r)) := by
  constructor
  · intro i j hfind
    obtain ⟨f, hf, _⟩ := findLoop_some C name (active r) i j hfind
    obtain ⟨hi, hfd⟩ := slotAt_active r i j f hf
    rw [delFile_found C r name i j hfind]
    refine ⟨rfl, ⟨f, hfd, ?_⟩, ?_, map_header_withActive r tombstone i j, rfl, rfl⟩
    · show slotAt (withActive r (modifySlot tombstone i j (active r))).disk i j = _
      rw [withActive_modifySlot r tombstone i j hi, slotAt_modifySlot, if_pos ⟨rfl, rfl⟩, hfd]
      rfl
    · intro i2 j2 hne
      show slotAt (withActive r (modifySlot tombstone i j (active r))).disk i2 j2 = _
      rw [withActive_modifySlot r tombstone i j hi, slotAt_modifySlot, if_neg hne]
  · exact delFile_miss C r name

/-- Claim C14 on `twoFiles`: deleting "a", found in slot `(0, 0)`, and deleting "z", which is
not there. -/
theorem delFile_effect_witness :
    findFile cfg twoFiles [97] = some (0, 0) ∧ (delFile cfg twoFiles [97]).1 = 1 ∧
      (delFile cfg twoFiles [97]).2.disk.map header = twoFiles.disk.map header ∧
      findFile cfg twoFiles [122] = none ∧ delFile cfg twoFiles [122] = (0, twoFiles) :=
  ⟨by decide, ((delFile_effect cfg twoFiles [97]).1 0 0 (by decide)).1,
    ((delFile_effect cfg twoFiles [97]).1 0 0 (by decide)).2.2.2.1, by decide,
    (delFile_effect cfg twoFiles [122]).2 (by decide)⟩

/-- Claim C15, refuted as stated: the array left by `addFile` of "a" with 100 blocks on a
freshly formatted array has no live entry, so the largest `endBlock` over the live entries
is 0, while `rightFreeBlock` is 100 and `rightFreeBlocks` is 1900 of 2000 blocks. -/
theorem rightFreeBlock_counts_empty_slots_counterexample :
    (allSlots (active (addFile cfg fresh2 [97] 100).raid)).filter isLive = [] ∧
      frontierLive (addFile cfg fresh2 [97] 100).raid = 0 ∧
      rightFreeBlock (addFile cfg fresh2 [97] 100).raid = 100 ∧
      (addFile cfg fresh2 [97] 100).raid.totalBlocks = 2000 ∧
      rightFreeBlocks (addFile cfg fresh2 [97] 100).raid = 1900 := by
  decide

/-- Claim C15, amended: `rightFreeBlock` is the largest `endBlock` over every slot, live or
not, of the devices in use, and 0 when there is none; it is the largest `endBlock` over the
live entries whenever every slot that is not live has `endBlock = 0`; `rightFreeBlocks` is
`totalBlocks` minus `rightFreeBlock` modulo `2 ^ 64`, hence their difference when
`rightFreeBlock ≤ totalBlocks < 2 ^ 64`. -/
theorem rightFreeBlock_spec (r : nvmeRaid) :
    rightFreeBlock r = frontierAll r ∧
      ((∀ f ∈ allSlots (active r), isLive f = false → f.endBlock = 0) →
        rightFreeBlock r = frontierLive r) ∧
      rightFreeBlocks r = sub64 r.totalBlocks (rightFreeBlock r) ∧
      (rightFreeBlock r ≤ r.totalBlocks → r.totalBlocks < u64 →
        rightFreeBlocks r = r.totalBlocks - rightFreeBlock r) := by
  have hall : rightFreeBlock r = frontierAll r := by
    unfold rightFreeBlock frontierAll
    rw [mostRightDisks_eq_max]
    omega
  refine ⟨hall, ?_, rfl, ?_⟩
  · intro hz
    rw [hall]
    unfold frontierAll frontierLive
    rw [maxEnd_filter_live _ hz]
  · intro hle hT
    unfold rightFreeBlocks sub64
    unfold u64 at *
    omega

/-- Claim C15, amended, on `twoFiles`, whose empty slots have `endBlock = 0`. -/
theorem rightFreeBlock_spec_witness :
    rightFreeBlock twoFiles = frontierLive twoFiles ∧ frontierLive twoFiles = 150 ∧
      rightFreeBlocks twoFiles = twoFiles.totalBlocks - rightFreeBlock twoFiles :=
  ⟨(rightFreeBlock_spec twoFiles).2.1 (by decide), by decide,
    (rightFreeBlock_spec twoFiles).2.2.2 (by decide) (by decide)⟩

/-- Claim C16: when `rightFreeBlocks` is below the block count, `addFile` returns `NULL` and
leaves the array unchanged; and when `rightFreeBlock ≤ totalBlocks < 2 ^ 64`, a successful
`addFile` yields an entry with `endBlock ≤ totalBlocks` whose `startBlock + blockCount` is
below `2 ^ 64` and equal to its `endBlock`. -/
theorem addFile_space_check (C : Config) (r : nvmeRaid) (name : List Nat) (S : Nat) :
    (rightFreeBlocks r < S →
      (addFile C r name S).ret.ptr = none ∧ (addFile C r name S).raid = r) ∧
      (r.totalBlocks < u64 → rightFreeBlock r ≤ r.totalBlocks →
        ∀ i j, (addFile C r name S).ret = AddReturn.entry i j →
          ∃ f, slotAt (active (addFile C r name S).raid) i j = some f ∧
            f.endBlock ≤ r.totalBlocks ∧ f.startBlock + S < u64 ∧
            f.endBlock = f.startBlock + S) := by
  constructor
  · intro hlt
    unfold addFile
    split_ifs
    · exact ⟨rfl, rfl⟩
    · exact ⟨rfl, rfl⟩
    · exact ⟨rfl, rfl⟩
  · intro hT hF i j hret
    obtain ⟨_, hS, hp, hraid⟩ := addFile_entry C r name S i j hret
    obtain ⟨f0, hf0, _⟩ := placeDisks_some (active r) i j hp
    have hfit := addFile_fits r S hT hF hS
    have hend : add64 (rightFreeBlock r) S = rightFreeBlock r + S := Nat.mod_eq_of_lt hfit
    refine ⟨placeEntry (rightFreeBlock r) S f0, ?_, ?_, hfit, hend⟩
    · rw [hraid, active_modified, slotAt_modifySlot, if_pos ⟨rfl, rfl⟩, hf0]
      rfl
    · show add64 (rightFreeBlock r) S ≤ r.totalBlocks
      rw [hend]
      unfold rightFreeBlocks sub64 at hS
      unfold u64 at *
      omega

/-- Claim C16 on `twoFiles`: a request of 5000 blocks against 1850 free blocks is refused,
and a request of 10 blocks yields an entry that ends within the 2000 blocks. -/
theorem addFile_space_check_witness :
    (rightFreeBlocks twoFiles < 5000 ∧ (addFile cfg twoFiles [99] 5000).ret.ptr = none ∧
      (addFile cfg twoFiles [99] 5000).raid = twoFiles) ∧
    (rightFreeBlock twoFiles ≤ twoFiles.totalBlocks ∧
      (addFile cfg twoFiles [99] 10).ret = AddReturn.entry 0 1 ∧
      ∃ f, slotAt (active (addFile cfg twoFiles [99] 10).raid) 0 1 = some f ∧
        f.endBlock ≤ twoFiles.totalBlocks ∧ f.startBlock + 10 < u64 ∧
        f.endBlock = f.startBlock + 10) :=
  ⟨⟨by decide, (addFile_space_check cfg twoFiles [99] 5000).1 (by decide)⟩,
    by decide, by decide,
    (addFile_space_check cfg twoFiles [99] 10).2 (by decide) (by decide) 0 1 (by decide)⟩

/-- Claim C18: when `findFile` finds its first match in the table of the sector at position
`i`, `findFileDisk` reads position `i` and returns `disk[i].diskId`, which is `i` when that
sector has `diskId = i`. -/
theorem findFileDisk_of_hit (C : Config) (r : nvmeRaid) (name : List Nat) (i j : Nat)
    (h : findFile C r name = some (i, j)) :
    findFileDiskIndex C r name = i ∧
      ∃ m, r.disk[i]? = some m ∧ findFileDisk C r name = some m.diskId ∧
        (m.diskId = i → findFileDisk C r name = some i) := by
  have hidx : findFileDiskIndex C r name = i := findFileDiskLoop_of_hit C name (active r) i j h
  obtain ⟨f, hf, _⟩ := findLoop_some C name (active r) i j h
  have hm : ∃ m, (active r)[i]? = some m := by
    unfold slotAt at hf
    cases hd : (active r)[i]? with
    | none => simp [hd] at hf
    | some m => exact ⟨m, rfl⟩
  obtain ⟨m, hm⟩ := hm
  have hd := getElem?_active r i m hm
  have hres : findFileDisk C r name = some m.diskId := by
    unfold findFileDisk
    rw [hidx, hd]
    rfl
  exact ⟨hidx, m, hd, hres, fun hid => by rw [hres, hid]⟩

/-- Claim C18 on `twoFiles`: "b" is found on the device at position 1. -/
theorem findFileDisk_of_hit_witness :
    findFile cfg twoFiles [98] = some (1, 0) ∧ findFileDiskIndex cfg twoFiles [98] = 1 ∧
      findFileDisk cfg twoFiles [98] = some 1 :=
  ⟨by decide, (findFileDisk_of_hit cfg twoFiles [98] 1 0 (by decide)).1, by decide⟩

/-- Claim C20, the code at a failing input: from the freshly formatted `fresh2`, `addFile` of
"a" with 100 blocks returns slot `(0, 0)` with range `[0, 100)`, and `addFile` of "b" with 50
blocks returns the same slot `(0, 0)`, now with range `[100, 150)`; the table then holds that
one range and three untouched slots, so the entry returned for "a" and the entry returned
for "b" record the same range. -/
theorem addFile_overwrites_previous_entry :
    (addFile cfg fresh2 [97] 100).ret = AddReturn.entry 0 0 ∧
      slotAt (active (addFile cfg fresh2 [97] 100).raid) 0 0 = some ⟨[0, 0, 0, 0], 0, 100⟩ ∧
      (addFile cfg (addFile cfg fresh2 [97] 100).raid [98] 50).ret = AddReturn.entry 0 0 ∧
      slotAt (active (addFile cfg (addFile cfg fresh2 [97] 100).raid [98] 50).raid) 0 0 =
        some ⟨[0, 0, 0, 0], 100, 150⟩ ∧
      allSlots (active (addFile cfg (addFile cfg fresh2 [97] 100).raid [98] 50).raid) =
        [⟨[0, 0, 0, 0], 100, 150⟩, emptySlot, emptySlot, emptySlot] := by
  decide

/-- Claim C21, refuted as stated: on a freshly formatted array `addFile` with a block count
of 0 succeeds and the entry has `startBlock = endBlock = 0`; on `wrapRaid` `addFile` with 5
blocks succeeds and the entry starts at block `2 ^ 64 - 1` and ends at block 4. -/
theorem addFile_empty_range_counterexample :
    (addFile cfg fresh2 [97] 0).ret = AddReturn.entry 0 0 ∧
      slotAt (active (addFile cfg fresh2 [97] 0).raid) 0 0 = some ⟨[0, 0, 0, 0], 0, 0⟩ ∧
      (addFile cfg wrapRaid [97] 5).ret = AddReturn.entry 0 1 ∧
      slotAt (active (addFile cfg wrapRaid [97] 5).raid) 0 1 =
        some ⟨[0, 0, 0, 0], 18446744073709551615, 4⟩ := by
  decide

/-- Claim C21, amended: when `addFile` succeeds for a block count `S ≥ 1` with `F + S` below
`2 ^ 64`, where `F` is `rightFreeBlock` before the call, the returned entry has
`startBlock < endBlock`. -/
theorem addFile_range_nonempty (C : Config) (r : nvmeRaid) (name : List Nat) (S i j : Nat)
    (hret : (addFile C r name S).ret = AddReturn.entry i j) (hpos : 0 < S)
    (hfit : rightFreeBlock r + S < u64) :
    ∃ f, slotAt (active (addFile C r name S).raid) i j = some f ∧ f.startBlock < f.endBlock := by
  obtain ⟨_, _, hp, hraid⟩ := addFile_entry C r name S i j hret
  obtain ⟨f0, hf0, _⟩ := placeDisks_some (active r) i j hp
  refine ⟨placeEntry (rightFreeBlock r) S f0, ?_, ?_⟩
  · rw [hraid, active_modified, slotAt_modifySlot, if_pos ⟨rfl, rfl⟩, hf0]
    rfl
  · show rightFreeBlock r < add64 (rightFreeBlock r) S
    unfold add64
    rw [Nat.mod_eq_of_lt hfit]
    omega

/-- Claim C21, amended, on `twoFiles`: inserting "c" with 10 blocks at frontier 150. -/
theorem addFile_range_nonempty_witness :
    (addFile cfg twoFiles [99] 10).ret = AddReturn.entry 0 1 ∧
      rightFreeBlock twoFiles + 10 < u64 ∧
      ∃ f, slotAt (active (addFile cfg twoFiles [99] 10).raid) 0 1 = some f ∧
        f.startBlock < f.endBlock :=
  ⟨by decide, by decide,
    addFile_range_nonempty cfg twoFiles [99] 10 0 1 (by decide) (by decide) (by decide)⟩

/-- Claim C22: if no two live slots at different positions hold names that compare equal,
the same is true of the array after `addFile` and of the array after `delFile`. -/
theorem uniqueNames_kept (C : Config) (r : nvmeRaid) (name : List Nat) (S : Nat)
    (h : UniqueNames C (active r)) :
    UniqueNames C (active (addFile C r name S).raid) ∧
      UniqueNames C (active (delFile C r name).2) := by
  constructor
  · rcases addFile_raid_cases C r name S with hr | ⟨i, j, _, hr⟩
    · rw [hr]
      exact h
    · rw [hr, active_modified]
      exact uniqueNames_modifySlot C (placeEntry (rightFreeBlock r) S) (fun _ => rfl) i j (active r) h
  · cases hfind : findFile C r name with
    | none =>
      rw [delFile_miss C r name hfind]
      exact h
    | some p =>
      obtain ⟨i, j⟩ := p
      rw [delFile_found C r name i j hfind, active_modified]
      exact uniqueNames_tombstone C i j (active r) h

/-- Claim C22 on `twoFiles`, whose live slots hold "a" and "b": inserting "c" and deleting
"a". -/
theorem uniqueNames_kept_witness :
    UniqueNames cfg (active twoFiles) ∧
      UniqueNames cfg (active (addFile cfg twoFiles [99] 10).raid) ∧
      UniqueNames cfg (active (delFile cfg twoFiles [97]).2) :=
  ⟨uniqueNames_of_indexed cfg (active twoFiles) (by decide),
    (uniqueNames_kept cfg twoFiles [99] 10
      (uniqueNames_of_indexed cfg (active twoFiles) (by decide))).1,
    (uniqueNames_kept cfg twoFiles [97] 10
      (uniqueNames_of_indexed cfg (active twoFiles) (by decide))).2⟩

/-- Claim C23, the code at a failing input: on `allSlotsTaken` the four slots hold ranges of
100, 50, 10 and 10 blocks, 170 in all, so 1830 of the 2000 blocks are left, while `blocksLeft`
returns 1990; on `twoFiles` the ranges sum to 150 and `blocksLeft` returns 2000. -/
theorem blocksLeft_counts_last_slot_only :
    usedBlocksSum allSlotsTaken = 170 ∧ blocksLeftSum allSlotsTaken = 1830 ∧
      blocksLeft allSlotsTaken = 1990 ∧
      usedBlocksSum twoFiles = 150 ∧ blocksLeftSum twoFiles = 1850 ∧
      blocksLeft twoFiles = 2000 := by
  decide

end NvmeRaid
